import Mathlib

/-!
Verification of the Gemini private-API client (`taxbit_gemini/private_client.py`).

The development shallowly embeds the client's signed-request engine:
Python strings are Lean `String`s (lists of unicode scalar values), byte
strings are `List Nat` with every element below 256, and Python dicts are
association lists in insertion order (`dictSet` mirrors Python's
assignment semantics: updating an existing key in place, appending a new
one).  `json.dumps` with its default options (separators `", "` and
`": "`, `ensure_ascii = true`) is embedded as `dumpObj`; `json.loads` as
the recursive-descent parser `loads`; `base64.b64encode` as `b64Encode`;
`str.encode("utf-8")` as `utf8Encode`; and `hmac.new(key, msg,
hashlib.sha384).hexdigest()` as `hmacSha384Hex` on top of a full SHA-384
(SHA-512 with the SHA-384 initial state, truncated) implementation.
`api_query` itself is split into the pure request-building part
(`api_query_request`, everything up to and including the header
assembly) and the response-handling part (`api_query_response`,
mirroring the `return_status` branch); the in-place mutation of the
caller-supplied payload dict is captured by `api_query_heap`, which
threads an explicit heap of dictionaries.
-/

namespace GeminiClient

/-- The character `\x7b` (left curly brace). -/
def lbrace : Char := Char.ofNat 123

/-- The character `\x7d` (right curly brace). -/
def rbrace : Char := Char.ofNat 125

/-- The double-quote character. -/
def dq : Char := Char.ofNat 34

/-- The backslash character. -/
def bsl : Char := Char.ofNat 92

/-- Decimal digit to character, `0 ↦ '0'`, ..., `9 ↦ '9'`. -/
def digitChar (d : Nat) : Char := Char.ofNat (48 + d)

/-- Is `c` a decimal digit character? -/
def isDigitCh (c : Char) : Bool := 48 ≤ c.toNat && c.toNat ≤ 57

/-- Fuel-indexed decimal printer; `natToCharsAux f n` is the decimal
representation of `n` whenever `n < 10 ^ f`. -/
def natToCharsAux : Nat → Nat → List Char
  | 0, _ => []
  | f + 1, n => if n < 10 then [digitChar n] else natToCharsAux f (n / 10) ++ [digitChar (n % 10)]

/-- Decimal representation of a natural number, most significant digit
first: the embedding of Python `str` on a nonnegative `int`. -/
def natToChars (n : Nat) : List Char := natToCharsAux (n + 1) n

/-- Embedding of Python `str` on an `int` (decimal, `-` sign for
negative values). -/
def intToChars (n : Int) : List Char :=
  if n < 0 then '-' :: natToChars n.natAbs else natToChars n.natAbs

/-- `TIME_LENGTH = 18` from the source. -/
def TIME_LENGTH : Nat := 18

/-- The `while len(payload['nonce']) < TIME_LENGTH: payload['nonce'] += "0"`
loop, with explicit fuel (a fuel of `TIME_LENGTH` always suffices: each
iteration grows the string by one). -/
def padLoop : Nat → List Char → List Char
  | 0, s => s
  | f + 1, s => if s.length < TIME_LENGTH then padLoop f (s ++ ['0']) else s

/-- The nonce built at line 34-36 of `private_client.py`:
`str(int(time.time() * 1000))`, zero-padded on the right while shorter
than `TIME_LENGTH`.  `ms` is the current Unix time in milliseconds. -/
def pyNonce (ms : Nat) : List Char := padLoop TIME_LENGTH (natToChars ms)

/-- JSON primitive values a payload field can hold (the client only ever
builds strings, integers, booleans and null; floats never occur). -/
inductive JPrim where
  | str (s : String)
  | int (n : Int)
  | bool (b : Bool)
  | null
deriving DecidableEq, Repr

/-- A payload value: a primitive or an array of primitives (the only
array the client builds is the `options` list of strings). -/
inductive JVal where
  | prim (p : JPrim)
  | arr (xs : List JPrim)
deriving DecidableEq, Repr

/-- A Python dict with string keys, in insertion order. -/
abbrev PObj : Type := List (String × JVal)

/-- Lowercase hexadecimal digit character for `d < 16`. -/
def hexChar (d : Nat) : Char := if d < 10 then Char.ofNat (48 + d) else Char.ofNat (87 + d)

/-- Four-character lowercase hex representation of `n < 0x10000`
(as produced inside Python's `\uXXXX` escapes). -/
def hex4 (n : Nat) : List Char :=
  [hexChar (n / 4096 % 16), hexChar (n / 256 % 16), hexChar (n / 16 % 16), hexChar (n % 16)]

/-- Python `json`'s `ensure_ascii` escaping of one character:
`"` and backslash get a backslash escape, the five short-escape control
characters use theirs, other control characters and every non-ASCII
character become `\uXXXX` (a surrogate pair beyond the BMP), and
printable ASCII is left alone. -/
def escapeChar (c : Char) : List Char :=
  if c = dq then [bsl, dq]
  else if c = bsl then [bsl, bsl]
  else if c.toNat = 8 then [bsl, 'b']
  else if c.toNat = 9 then [bsl, 't']
  else if c.toNat = 10 then [bsl, 'n']
  else if c.toNat = 12 then [bsl, 'f']
  else if c.toNat = 13 then [bsl, 'r']
  else if c.toNat < 32 then bsl :: 'u' :: hex4 c.toNat
  else if c.toNat < 127 then [c]
  else if c.toNat < 65536 then bsl :: 'u' :: hex4 c.toNat
  else
    (bsl :: 'u' :: hex4 (55296 + (c.toNat - 65536) / 1024)) ++
      (bsl :: 'u' :: hex4 (56320 + (c.toNat - 65536) % 1024))

/-- JSON string literal for `s`, double quotes included. -/
def dumpString (s : String) : List Char :=
  dq :: (s.data.map escapeChar).flatten ++ [dq]

/-- Serialization of a primitive (`json.dumps` on a scalar). -/
def dumpPrim : JPrim → List Char
  | .str s => dumpString s
  | .int n => intToChars n
  | .bool true => ['t', 'r', 'u', 'e']
  | .bool false => ['f', 'a', 'l', 's', 'e']
  | .null => ['n', 'u', 'l', 'l']

/-- Interpose a separator between serialized items (Python's default
item separator is a comma followed by a space). -/
def sepList (sep : List Char) : List (List Char) → List Char
  | [] => []
  | [x] => x
  | x :: y :: rest => x ++ sep ++ sepList sep (y :: rest)

/-- Serialization of a payload value. -/
def dumpVal : JVal → List Char
  | .prim p => dumpPrim p
  | .arr xs => '[' :: sepList [',', ' '] (xs.map dumpPrim) ++ [']']

/-- Serialization of one `key: value` object member (Python's default
key separator is a colon followed by a space). -/
def dumpMember (kv : String × JVal) : List Char :=
  dumpString kv.1 ++ ':' :: ' ' :: dumpVal kv.2

/-- `json.dumps(payload)` with Python's default options: the members in
insertion order, separated by `", "`, keys and values separated by
`": "`, all output ASCII. -/
def dumpObj (m : PObj) : List Char :=
  lbrace :: sepList [',', ' '] (m.map dumpMember) ++ [rbrace]

/-! ### A JSON parser (the embedding of `json.loads`)

A recursive-descent parser over character lists.  Each function returns
the parsed value together with the unconsumed rest of the input, or
`none` on a syntax error.  JSON whitespace is accepted anywhere the
grammar allows it.  Floating-point literals and lone surrogate escapes
are rejected: the former cannot occur in any payload the client builds,
the latter are not representable as Lean characters. -/

/-- Is `c` JSON whitespace? -/
def isWsCh (c : Char) : Bool := c = ' ' || c.toNat = 9 || c.toNat = 10 || c.toNat = 13

/-- Drop leading JSON whitespace. -/
def skipWs : List Char → List Char
  | [] => []
  | c :: rest => if isWsCh c then skipWs rest else c :: rest

/-- Value of one hexadecimal digit character. -/
def hexVal (c : Char) : Option Nat :=
  if 48 ≤ c.toNat && c.toNat ≤ 57 then some (c.toNat - 48)
  else if 97 ≤ c.toNat && c.toNat ≤ 102 then some (c.toNat - 87)
  else if 65 ≤ c.toNat && c.toNat ≤ 70 then some (c.toNat - 55)
  else none

/-- Value of a four-digit hexadecimal escape body. -/
def hex4Val (h1 h2 h3 h4 : Char) : Option Nat := do
  let v1 ← hexVal h1
  let v2 ← hexVal h2
  let v3 ← hexVal h3
  let v4 ← hexVal h4
  pure (v1 * 4096 + v2 * 256 + v3 * 16 + v4)

/-- Decode one character of a JSON string literal body: a plain
character (no control characters), a short escape, or a `\uXXXX`
escape, where an escape in the surrogate range must form a high/low
pair decoding to the designated code point.  `none` on the closing
quote and on malformed input. -/
def strCharStep : List Char → Option (Char × List Char)
  | [] => none
  | c :: rest =>
    if c = dq then none
    else if c = bsl then
      match rest with
      | [] => none
      | e :: rest2 =>
        if e = dq then some (dq, rest2)
        else if e = bsl then some (bsl, rest2)
        else if e = '/' then some ('/', rest2)
        else if e = 'b' then some (Char.ofNat 8, rest2)
        else if e = 't' then some (Char.ofNat 9, rest2)
        else if e = 'n' then some (Char.ofNat 10, rest2)
        else if e = 'f' then some (Char.ofNat 12, rest2)
        else if e = 'r' then some (Char.ofNat 13, rest2)
        else if e = 'u' then
          match rest2 with
          | h1 :: h2 :: h3 :: h4 :: rest3 =>
            match hex4Val h1 h2 h3 h4 with
            | none => none
            | some n =>
              if n < 55296 || 57344 ≤ n then some (Char.ofNat n, rest3)
              else if n < 56320 then
                match rest3 with
                | b1 :: e2 :: g1 :: g2 :: g3 :: g4 :: rest4 =>
                  if b1 = bsl && e2 = 'u' then
                    match hex4Val g1 g2 g3 g4 with
                    | none => none
                    | some m =>
                      if 56320 ≤ m && m < 57344 then
                        some (Char.ofNat (65536 + (n - 55296) * 1024 + (m - 56320)), rest4)
                      else none
                  else none
                | _ => none
              else none
          | _ => none
        else none
    else if c.toNat < 32 then none
    else some (c, rest)

/-- Parse the body of a JSON string literal through its closing quote,
one `strCharStep` at a time; `fuel` bounds the number of decoded
characters (the input length always suffices). -/
def parseStrBodyAux (fuel : Nat) (cs : List Char) : Option (List Char × List Char) :=
  match cs with
  | [] => none
  | c :: rest =>
    if c = dq then some ([], rest)
    else
      match fuel with
      | 0 => none
      | fuel + 1 =>
        match strCharStep (c :: rest) with
        | some (ch, rest2) => (parseStrBodyAux fuel rest2).map (fun pr => (ch :: pr.1, pr.2))
        | none => none

/-- Parse the body of a JSON string literal (the opening quote already
consumed), returning the decoded characters and the rest of the input
after the closing quote. -/
def parseStrBody (cs : List Char) : Option (List Char × List Char) :=
  parseStrBodyAux cs.length cs

/-- Consume a maximal run of decimal digits, folding them onto `acc`. -/
def parseDigits : List Char → Nat → Nat × List Char
  | [], acc => (acc, [])
  | c :: rest, acc =>
    if isDigitCh c then parseDigits rest (acc * 10 + (c.toNat - 48)) else (acc, c :: rest)

/-- Parse an unsigned JSON integer; fails on an empty digit run and on a
fractional part or exponent (no payload of this client carries floats). -/
def parseNatNum (cs : List Char) : Option (Nat × List Char) :=
  match cs with
  | [] => none
  | c :: _ =>
    if isDigitCh c then
      let pr := parseDigits cs 0
      match pr.2 with
      | [] => some pr
      | d :: _ => if d = '.' || d = 'e' || d = 'E' then none else some pr
    else none

/-- Parse a JSON integer with optional leading minus sign. -/
def parseIntNum : List Char → Option (Int × List Char)
  | [] => none
  | c :: rest =>
    if c = '-' then (parseNatNum rest).map (fun pr => (-(pr.1 : Int), pr.2))
    else (parseNatNum (c :: rest)).map (fun pr => ((pr.1 : Int), pr.2))

/-- Parse a JSON primitive: a string, integer, boolean or null. -/
def parsePrim : List Char → Option (JPrim × List Char)
  | [] => none
  | c :: rest =>
    if c = dq then (parseStrBody rest).map (fun pr => (.str (String.mk pr.1), pr.2))
    else if c = 't' then
      match rest with
      | 'r' :: 'u' :: 'e' :: rest2 => some (.bool true, rest2)
      | _ => none
    else if c = 'f' then
      match rest with
      | 'a' :: 'l' :: 's' :: 'e' :: rest2 => some (.bool false, rest2)
      | _ => none
    else if c = 'n' then
      match rest with
      | 'u' :: 'l' :: 'l' :: rest2 => some (.null, rest2)
      | _ => none
    else (parseIntNum (c :: rest)).map (fun pr => (.int pr.1, pr.2))

/-- Parse the comma-separated elements of a nonempty array, up to and
including the closing bracket.  `fuel` bounds the number of elements; a
fuel of the input length always suffices. -/
def parseElems : Nat → List Char → Option (List JPrim × List Char)
  | 0, _ => none
  | fuel + 1, cs => do
    let (p, r1) ← parsePrim (skipWs cs)
    match skipWs r1 with
    | [] => none
    | c :: r2 =>
      if c = ',' then (parseElems fuel r2).map (fun pr => (p :: pr.1, pr.2))
      else if c = ']' then some ([p], r2)
      else none

/-- Parse a JSON value as this client's payloads use them: a primitive
or an array of primitives. -/
def parseVal (fuel : Nat) (cs : List Char) : Option (JVal × List Char) :=
  match cs with
  | [] => none
  | c :: rest =>
    if c = '[' then
      match skipWs rest with
      | [] => none
      | d :: r2 =>
        if d = ']' then some (.arr [], r2)
        else (parseElems fuel (d :: r2)).map (fun pr => (.arr pr.1, pr.2))
    else (parsePrim cs).map (fun pr => (.prim pr.1, pr.2))

/-- Parse one `"key": value` object member: the key string, the colon,
the value, with JSON whitespace allowed around each token. -/
def parseMember (cs : List Char) : Option ((String × JVal) × List Char) :=
  match skipWs cs with
  | [] => none
  | c :: r1 =>
    if c = dq then
      match parseStrBody r1 with
      | none => none
      | some (k, r2) =>
        match skipWs r2 with
        | [] => none
        | d :: r3 =>
          if d = ':' then
            match parseVal r3.length (skipWs r3) with
            | none => none
            | some (v, r4) => some ((String.mk k, v), r4)
          else none
    else none

/-- Parse the comma-separated members of a nonempty object, up to and
including the closing brace.  `fuel` bounds the number of members. -/
def parseMembers : Nat → List Char → Option (List (String × JVal) × List Char)
  | 0, _ => none
  | fuel + 1, cs =>
    match parseMember cs with
    | none => none
    | some (kv, r4) =>
      match skipWs r4 with
      | [] => none
      | e :: r5 =>
        if e = ',' then (parseMembers fuel r5).map (fun pr => (kv :: pr.1, pr.2))
        else if e = rbrace then some ([kv], r5)
        else none

/-- `json.loads` on a top-level JSON object (every payload this client
signs is an object): parse the object and require that only whitespace
remains. -/
def loads (s : String) : Option PObj :=
  match skipWs s.data with
  | [] => none
  | c :: rest =>
    if c = lbrace then
      match skipWs rest with
      | [] => none
      | d :: r2 =>
        if d = rbrace then if (skipWs r2).isEmpty then some [] else none
        else
          match parseMembers (c :: rest).length (d :: r2) with
          | none => none
          | some (ms, r3) => if (skipWs r3).isEmpty then some ms else none
    else none

/-! ### UTF-8 (the embedding of `str.encode("utf-8")` / `bytes.decode("utf-8")`) -/

/-- UTF-8 encoding of one unicode scalar value (1 to 4 bytes). -/
def utf8EncodeChar (c : Char) : List Nat :=
  if c.toNat < 128 then [c.toNat]
  else if c.toNat < 2048 then [192 + c.toNat / 64, 128 + c.toNat % 64]
  else if c.toNat < 65536 then
    [224 + c.toNat / 4096, 128 + c.toNat / 64 % 64, 128 + c.toNat % 64]
  else
    [240 + c.toNat / 262144, 128 + c.toNat / 4096 % 64, 128 + c.toNat / 64 % 64,
      128 + c.toNat % 64]

/-- UTF-8 encoding of a character sequence. -/
def utf8Encode (s : List Char) : List Nat := (s.map utf8EncodeChar).flatten

/-- Is `b` a UTF-8 continuation byte (`10xxxxxx`)? -/
def isCont (b : Nat) : Bool := 128 ≤ b && b < 192

/-- Decode one UTF-8-encoded scalar value from the front of a byte
list: the character and the remaining bytes.  Rejects malformed
sequences, overlong encodings, surrogate code points and out-of-range
values, as Python's strict `bytes.decode("utf-8")` does. -/
def utf8DecodeStep : List Nat → Option (Char × List Nat)
  | [] => none
  | b :: rest =>
    if b < 128 then some (Char.ofNat b, rest)
    else if b < 192 then none
    else if b < 224 then
      match rest with
      | b2 :: rest2 =>
        if isCont b2 then
          if 128 ≤ (b - 192) * 64 + (b2 - 128) then
            some (Char.ofNat ((b - 192) * 64 + (b2 - 128)), rest2)
          else none
        else none
      | [] => none
    else if b < 240 then
      match rest with
      | b2 :: b3 :: rest2 =>
        if isCont b2 && isCont b3 then
          if 2048 ≤ (b - 224) * 4096 + (b2 - 128) * 64 + (b3 - 128) &&
              ((b - 224) * 4096 + (b2 - 128) * 64 + (b3 - 128) < 55296 ||
                57344 ≤ (b - 224) * 4096 + (b2 - 128) * 64 + (b3 - 128)) then
            some (Char.ofNat ((b - 224) * 4096 + (b2 - 128) * 64 + (b3 - 128)), rest2)
          else none
        else none
      | _ => none
    else if b < 248 then
      match rest with
      | b2 :: b3 :: b4 :: rest2 =>
        if isCont b2 && isCont b3 && isCont b4 then
          if 65536 ≤ (b - 240) * 262144 + (b2 - 128) * 4096 + (b3 - 128) * 64 + (b4 - 128) &&
              (b - 240) * 262144 + (b2 - 128) * 4096 + (b3 - 128) * 64 + (b4 - 128) <
                1114112 then
            some
              (Char.ofNat ((b - 240) * 262144 + (b2 - 128) * 4096 + (b3 - 128) * 64 + (b4 - 128)),
                rest2)
          else none
        else none
      | _ => none
    else none

/-- Repeatedly decode scalar values; `fuel` bounds the number of
characters (the byte count always suffices, every character spanning at
least one byte). -/
def utf8DecodeAux : Nat → List Nat → Option (List Char)
  | _, [] => some []
  | 0, _ :: _ => none
  | fuel + 1, b :: rest =>
    match utf8DecodeStep (b :: rest) with
    | some (c, rest2) => (utf8DecodeAux fuel rest2).map (fun cs => c :: cs)
    | none => none

/-- Full UTF-8 decoding of a byte string. -/
def utf8Decode (bs : List Nat) : Option (List Char) := utf8DecodeAux bs.length bs

/-! ### Base64 (the embedding of `base64.b64encode` and its inverse) -/

/-- The standard base64 alphabet. -/
def b64Alphabet : List Char :=
  "ABCDEFGHIJKLMNOPQRSTUVWXYZabcdefghijklmnopqrstuvwxyz0123456789+/".data

/-- The alphabet character for a 6-bit group `n < 64`. -/
def b64Char (n : Nat) : Char := b64Alphabet.getD n 'A'

/-- `base64.b64encode`: bytes in, alphabet characters out, `=`-padded to
a multiple of four characters. -/
def b64Encode : List Nat → List Char
  | [] => []
  | [b1] => [b64Char (b1 / 4), b64Char (b1 % 4 * 16), '=', '=']
  | [b1, b2] => [b64Char (b1 / 4), b64Char (b1 % 4 * 16 + b2 / 16), b64Char (b2 % 16 * 4), '=']
  | b1 :: b2 :: b3 :: rest =>
    b64Char (b1 / 4) :: b64Char (b1 % 4 * 16 + b2 / 16) ::
      b64Char (b2 % 16 * 4 + b3 / 64) :: b64Char (b3 % 64) :: b64Encode rest

/-- Value of one base64 alphabet character. -/
def b64CharVal (c : Char) : Option Nat :=
  if 65 ≤ c.toNat && c.toNat ≤ 90 then some (c.toNat - 65)
  else if 97 ≤ c.toNat && c.toNat ≤ 122 then some (c.toNat - 71)
  else if 48 ≤ c.toNat && c.toNat ≤ 57 then some (c.toNat + 4)
  else if c = '+' then some 62
  else if c = '/' then some 63
  else none

/-- Standard base64 decoding of well-formed input (quartets of alphabet
characters, the last possibly `=`-padded). -/
def b64Decode : List Char → Option (List Nat)
  | [] => some []
  | c1 :: c2 :: c3 :: c4 :: rest =>
    match b64CharVal c1, b64CharVal c2 with
    | some v1, some v2 =>
      if c3 = '=' then
        if c4 = '=' && rest.isEmpty then some [v1 * 4 + v2 / 16] else none
      else
        match b64CharVal c3 with
        | some v3 =>
          if c4 = '=' then
            if rest.isEmpty then some [v1 * 4 + v2 / 16, v2 % 16 * 16 + v3 / 4] else none
          else
            match b64CharVal c4 with
            | some v4 =>
              (b64Decode rest).map
                (fun bs => (v1 * 4 + v2 / 16) :: (v2 % 16 * 16 + v3 / 4) :: (v3 % 4 * 64 + v4) :: bs)
            | none => none
        | none => none
    | _, _ => none
  | _ => none

/-! ### SHA-384 and HMAC (the embedding of `hashlib.sha384` / `hmac`)

A complete SHA-384 implementation: SHA-512 compression (FIPS 180-4)
started from the SHA-384 initial hash value, the digest truncated to 48
bytes.  64-bit words are naturals kept below `2 ^ 64` by explicit
reduction. -/

/-- `2 ^ 64`. -/
def w64 : Nat := 18446744073709551616

/-- 64-bit modular addition. -/
def add64 (a b : Nat) : Nat := (a + b) % w64

/-- Rotate a 64-bit word right by `k` bits (for `x < 2 ^ 64`, `k ≤ 64`). -/
def rotr64 (x k : Nat) : Nat := x / 2 ^ k + x % 2 ^ k * 2 ^ (64 - k)

/-- The 80 SHA-512 round constants (the first 64 bits of the fractional
parts of the cube roots of the first 80 primes). -/
def shaK : List Nat := [
  4794697086780616226, 8158064640168781261, 13096744586834688815, 16840607885511220156,
  4131703408338449720, 6480981068601479193, 10538285296894168987, 12329834152419229976,
  15566598209576043074, 1334009975649890238, 2608012711638119052, 6128411473006802146,
  8268148722764581231, 9286055187155687089, 11230858885718282805, 13951009754708518548,
  16472876342353939154, 17275323862435702243, 1135362057144423861, 2597628984639134821,
  3308224258029322869, 5365058923640841347, 6679025012923562964, 8573033837759648693,
  10970295158949994411, 12119686244451234320, 12683024718118986047, 13788192230050041572,
  14330467153632333762, 15395433587784984357, 489312712824947311, 1452737877330783856,
  2861767655752347644, 3322285676063803686, 5560940570517711597, 5996557281743188959,
  7280758554555802590, 8532644243296465576, 9350256976987008742, 10552545826968843579,
  11727347734174303076, 12113106623233404929, 14000437183269869457, 14369950271660146224,
  15101387698204529176, 15463397548674623760, 17586052441742319658, 1182934255886127544,
  1847814050463011016, 2177327727835720531, 2830643537854262169, 3796741975233480872,
  4115178125766777443, 5681478168544905931, 6601373596472566643, 7507060721942968483,
  8399075790359081724, 8693463985226723168, 9568029438360202098, 10144078919501101548,
  10430055236837252648, 11840083180663258601, 13761210420658862357, 14299343276471374635,
  14566680578165727644, 15097957966210449927, 16922976911328602910, 17689382322260857208,
  500013540394364858, 748580250866718886, 1242879168328830382, 1977374033974150939,
  2944078676154940804, 3659926193048069267, 4368137639120453308, 4836135668995329356,
  5532061633213252278, 6448918945643986474, 6902733635092675308, 7801388544844847127]

/-- The SHA-384 initial hash value (the first 64 bits of the fractional
parts of the square roots of the 9th through 16th primes). -/
def shaIV384 : List Nat := [
  14680500436340154072, 7105036623409894663, 10473403895298186519, 1526699215303891257,
  7436329637833083697, 10282925794625328401, 15784041429090275239, 5167115440072839076]

/-- `k`-byte big-endian representation of `n`. -/
def beBytes : Nat → Nat → List Nat
  | 0, _ => []
  | k + 1, n => beBytes k (n / 256) ++ [n % 256]

/-- Big-endian byte list to a natural number. -/
def beVal (bs : List Nat) : Nat := bs.foldl (fun acc b => acc * 256 + b) 0

/-- FIPS 180-4 message padding for SHA-512: append `0x80`, zero bytes,
then the message bit length as 16 big-endian bytes, reaching a multiple
of 128 bytes. -/
def shaPad (msg : List Nat) : List Nat :=
  msg ++ 128 :: List.replicate ((128 - (msg.length + 17) % 128) % 128) 0 ++
    beBytes 16 (msg.length * 8)

/-- Split a byte list into chunks of `k` bytes (`fuel` bounds the chunk
count). -/
def chunks (k : Nat) : Nat → List Nat → List (List Nat)
  | 0, _ => []
  | _ + 1, [] => []
  | fuel + 1, bs => bs.take k :: chunks k fuel (bs.drop k)

/-- σ₀ message-schedule function. -/
def ssig0 (x : Nat) : Nat := Nat.xor (Nat.xor (rotr64 x 1) (rotr64 x 8)) (x / 2 ^ 7)

/-- σ₁ message-schedule function. -/
def ssig1 (x : Nat) : Nat := Nat.xor (Nat.xor (rotr64 x 19) (rotr64 x 61)) (x / 2 ^ 6)

/-- Σ₀ compression function. -/
def bsig0 (x : Nat) : Nat := Nat.xor (Nat.xor (rotr64 x 28) (rotr64 x 34)) (rotr64 x 39)

/-- Σ₁ compression function. -/
def bsig1 (x : Nat) : Nat := Nat.xor (Nat.xor (rotr64 x 14) (rotr64 x 18)) (rotr64 x 41)

/-- Ch(x, y, z) = (x ∧ y) ⊕ (¬x ∧ z). -/
def chF (x y z : Nat) : Nat := Nat.xor (Nat.land x y) (Nat.land (Nat.xor x (w64 - 1)) z)

/-- Maj(x, y, z) = (x ∧ y) ⊕ (x ∧ z) ⊕ (y ∧ z). -/
def majF (x y z : Nat) : Nat := Nat.xor (Nat.xor (Nat.land x y) (Nat.land x z)) (Nat.land y z)

/-- Extend the 16 message-schedule words to 80. -/
def extendW : Nat → List Nat → List Nat
  | 0, ws => ws
  | fuel + 1, ws =>
    extendW fuel (ws ++ [add64 (add64 (ssig1 (ws.getD (ws.length - 2) 0))
      (ws.getD (ws.length - 7) 0))
      (add64 (ssig0 (ws.getD (ws.length - 15) 0)) (ws.getD (ws.length - 16) 0))])

/-- One SHA-512 round on the eight working variables. -/
def shaRound (kw : Nat × Nat) (st : List Nat) : List Nat :=
  match st with
  | [a, b, c, d, e, f, g, h] =>
    let t1 := add64 (add64 (add64 h (bsig1 e)) (add64 (chF e f g) kw.1)) kw.2
    let t2 := add64 (bsig0 a) (majF a b c)
    [add64 t1 t2, a, b, c, add64 d t1, e, f, g]
  | st => st

/-- SHA-512 compression of one 128-byte block into the running state. -/
def shaBlock (st : List Nat) (block : List Nat) : List Nat :=
  let ws := extendW 64 ((chunks 8 16 block).map beVal)
  let fin := (shaK.zip ws).foldl (fun s kw => shaRound kw s) st
  (st.zip fin).map (fun ab => add64 ab.1 ab.2)

/-- SHA-384 digest of a byte string: 48 bytes. -/
def sha384Bytes (msg : List Nat) : List Nat :=
  let padded := shaPad msg
  let final := (chunks 128 (padded.length / 128) padded).foldl shaBlock shaIV384
  ((final.take 6).map (beBytes 8)).flatten

/-- Lowercase hex representation of a byte string. -/
def bytesToHex (bs : List Nat) : List Char :=
  (bs.map (fun b => [hexChar (b / 16), hexChar (b % 16)])).flatten

/-- `hashlib.sha384(msg).hexdigest()`. -/
def sha384Hex (msg : List Nat) : List Char := bytesToHex (sha384Bytes msg)

/-- `hmac.new(key, msg, hashlib.sha384).digest()` (RFC 2104 with the
SHA-384 block size of 128 bytes: a key longer than a block is hashed
first, the key is zero-padded to the block size, and the inner and
outer pads are `0x36` and `0x5c`). -/
def hmacSha384Bytes (key msg : List Nat) : List Nat :=
  let k0 := if 128 < key.length then sha384Bytes key else key
  let kp := k0 ++ List.replicate (128 - k0.length) 0
  sha384Bytes (kp.map (fun b => Nat.xor b 92) ++
    sha384Bytes (kp.map (fun b => Nat.xor b 54) ++ msg))

/-- `hmac.new(key, msg, hashlib.sha384).hexdigest()`. -/
def hmacSha384Hex (key msg : List Nat) : List Char := bytesToHex (hmacSha384Bytes key msg)

/-! ### The client (`PrivateClient.__init__` and `api_query`) -/

/-- Python dict assignment `d[k] = v`: replace the value of an existing
key in place (insertion position preserved), otherwise append the new
key at the end. -/
def dictSet (d : PObj) (k : String) (v : JVal) : PObj :=
  if d.any (fun kv => kv.1 = k) then
    d.map (fun kv => if kv.1 = k then (k, v) else kv)
  else d ++ [(k, v)]

/-- Python dict lookup `d.get(k)`: the value of the first matching key. -/
def dictGet (d : PObj) (k : String) : Option JVal :=
  (d.find? (fun kv => kv.1 = k)).map (fun kv => kv.2)

/-- The client state established by `PrivateClient.__init__`: the
credential pair and the base URL (the public-client fields the signing
engine never reads are omitted). -/
structure PrivateClient where
  publicKey : String
  privateKey : String
  baseUrl : String
deriving DecidableEq, Repr

/-- `PrivateClient.__init__(public_api_key, private_api_key, sandbox)`. -/
def mkPrivateClient (publicApiKey privateApiKey : String) (sandbox : Bool) : PrivateClient :=
  { publicKey := publicApiKey, privateKey := privateApiKey,
    baseUrl := if sandbox then "https://api.sandbox.gemini.com" else "https://api.gemini.com" }

/-- Lines 33-36 of `api_query`: stamp `request` and `nonce` into the
payload dict (`ms` is the current Unix time in milliseconds). -/
def injectFields (payload : PObj) (method : String) (ms : Nat) : PObj :=
  dictSet (dictSet payload "request" (.prim (.str method)))
    "nonce" (.prim (.str (String.mk (pyNonce ms))))

/-- The single HTTP request `api_query` hands to `requests.post`. -/
structure Request where
  url : String
  httpMethod : String
  headers : List (String × String)
  body : String
deriving DecidableEq, Repr

/-- The encoded payload of line 37:
`base64.b64encode(json.dumps(payload).encode('utf-8'))`. -/
def encodedPayload (payload : PObj) : List Char :=
  b64Encode (utf8Encode (dumpObj payload))

/-- The pure part of `api_query` (lines 29-49): default the payload,
stamp `request` and `nonce`, serialize, sign, and assemble the POST
request with its six headers and empty body. -/
def api_query_request (c : PrivateClient) (method : String) (payload : Option PObj)
    (ms : Nat) : Request :=
  let p := injectFields (payload.getD []) method ms
  let b64payload := encodedPayload p
  let signature := hmacSha384Hex (utf8Encode c.privateKey.data) (b64payload.map Char.toNat)
  { url := c.baseUrl ++ method,
    httpMethod := "POST",
    headers := [
      ("Content-Type", "text/plain"),
      ("Content-Length", "0"),
      ("X-GEMINI-APIKEY", c.publicKey),
      ("X-GEMINI-PAYLOAD", String.mk b64payload),
      ("X-GEMINI-SIGNATURE", String.mk signature),
      ("Cache-Control", "no-cache")],
    body := "" }

/-- The HTTP response `requests.post` hands back. -/
structure HttpResponse where
  statusCode : Nat
  bodyText : String
deriving DecidableEq, Repr

/-- What `api_query` returns: `r.json()` alone, or the 2-tuple
`(r.json(), r.status_code)`.  The body is `none` when the response text
is not a JSON object (`r.json()` raising). -/
inductive ApiResult where
  | bodyOnly (body : Option PObj)
  | withStatus (body : Option PObj) (status : Nat)
deriving DecidableEq, Repr

/-- Lines 50-52 of `api_query`: parse the response body and pair it with
the status code exactly when `return_status` was passed and truthy. -/
def api_query_response (returnStatus : Bool) (r : HttpResponse) : ApiResult :=
  if returnStatus then .withStatus (loads r.bodyText) r.statusCode
  else .bodyOnly (loads r.bodyText)

/-! ### The payload mutation, with an explicit heap (claim about
`payload['request'] = ...` writing into the caller's own dict) -/

/-- A heap of dict objects; a reference is an index. -/
abbrev Heap : Type := List PObj

/-- Lines 29-36 of `api_query` as a state transformer on the heap of
dicts: a `none` payload allocates a fresh empty dict, a `some r`
payload writes through the caller's reference `r`.  Returns the new
heap and the reference of the dict the call used. -/
def api_query_heap (method : String) (payloadRef : Option Nat) (ms : Nat)
    (h : Heap) : Heap × Nat :=
  match payloadRef with
  | none => (h ++ [injectFields [] method ms], h.length)
  | some r => (h.set r (injectFields (h.getD r []) method ms), r)

/-! ### Typed endpoint methods -/

/-- The payload dict literal of `new_order` (lines 93-100). -/
def new_order_payload (symbol amount price side : String) (options : List JPrim) : PObj :=
  [("symbol", .prim (.str symbol)),
   ("amount", .prim (.str amount)),
   ("price", .prim (.str price)),
   ("side", .prim (.str side)),
   ("options", .arr options),
   ("type", .prim (.str "exchange limit"))]

/-- The default of the `options` parameter of `new_order`. -/
def defaultOptions : List JPrim := [.str "immediate-or-cancel"]

/-- `new_order(symbol, amount, price, side, options)` as the request it
sends. -/
def new_order_request (c : PrivateClient) (symbol amount price side : String)
    (options : List JPrim) (ms : Nat) : Request :=
  api_query_request c "/v1/order/new" (some (new_order_payload symbol amount price side options)) ms

/-- `new_order(symbol, amount, price, side)` with the `options`
parameter left at its default. -/
def new_order_request_default (c : PrivateClient) (symbol amount price side : String)
    (ms : Nat) : Request :=
  new_order_request c symbol amount price side defaultOptions ms

/-- The payload dict of `create_deposit_address` (lines 359-364):
Python's `if label:` is true for a present, nonempty string. -/
def create_deposit_address_payload (label : Option String) : PObj :=
  match label with
  | some l => if l = "" then [] else [("label", .prim (.str l))]
  | none => []

/-- `create_deposit_address(currency, label)` as the request it sends
(the endpoint path is `'/v1/deposit/{currency}/newAddress'` with the
currency interpolated). -/
def create_deposit_address_request (c : PrivateClient) (currency : String)
    (label : Option String) (ms : Nat) : Request :=
  api_query_request c ("/v1/deposit/" ++ currency ++ "/newAddress")
    (some (create_deposit_address_payload label)) ms

/-- The parsed body carried by either form of `api_query`'s return
value. -/
def ApiResult.body : ApiResult → Option PObj
  | .bodyOnly b => b
  | .withStatus b _ => b

/-- Serialization of an object in compact JSON in the usual sense of
the term: the minimal separators `","` and `":"`, no whitespace.  This
follows the specification's words ("a compact JSON string"); the code
itself calls `json.dumps` with its default separators `", "` and
`": "`, embedded as `dumpObj`.  Defined only to compare the two. -/
def dumpObjCompact (m : PObj) : List Char :=
  lbrace :: sepList [','] (m.map (fun kv => dumpString kv.1 ++ ':' :: dumpVal kv.2)) ++ [rbrace]

/-- Number of array elements a value's serialization carries: the fuel
`parseElems` needs to read it back. -/
def arrCount : JVal → Nat
  | .prim _ => 0
  | .arr xs => xs.length

/-- Does parsing an integer stop correctly at the head of `rest`?  True
when `rest` does not begin with a digit, `.`, `e` or `E`. -/
def nextSafe : List Char → Bool
  | [] => true
  | c :: _ => !(isDigitCh c || c = '.' || c = 'e' || c = 'E')

/-- The thirteen typed endpoint methods of `PrivateClient` (the last
name carries the source's own spelling). -/
inductive EndpointMethod where
  | new_order
  | cancel_order
  | cancel_session_orders
  | cancel_all_orders
  | status_of_order
  | active_orders
  | get_past_trades
  | get_trade_volume
  | get_balance
  | get_transfers
  | create_deposit_address
  | withdraw_to_address
  | revive_hearbeat
deriving DecidableEq, Repr

/-- Which typed endpoint methods declare `**kwargs` and forward them to
`api_query`, read off the signatures: only `get_past_trades`
(line 215) and `get_transfers` (line 271) do; every other method has a
fixed parameter list. -/
def acceptsKwargs : EndpointMethod → Bool
  | .get_past_trades => true
  | .get_transfers => true
  | _ => false

/-- Outcome of a Python call carrying the keyword argument
`return_status=True`: either the call is rejected with a `TypeError`
(an unexpected keyword argument on a method without `**kwargs`, before
any request is made), or it runs and produces `api_query`'s result. -/
inductive CallOutcome where
  | typeError
  | result (res : ApiResult)
deriving DecidableEq, Repr

/-- Calling a typed endpoint method with `return_status=True`, as
Python's calling convention resolves it: methods without `**kwargs`
raise `TypeError`; the two forwarding methods hand the flag through to
`api_query`, whose lines 50-52 then pair the parsed body with the
status code of the response `r`. -/
def callEndpointReturnStatus (m : EndpointMethod) (r : HttpResponse) : CallOutcome :=
  if acceptsKwargs m then .result (api_query_response true r) else .typeError

/-! ## Lemmas about Python dict assignment -/

theorem find?_map_set (d : PObj) (k : String) (v : JVal) :
    (d.map (fun kv => if kv.1 = k then (k, v) else kv)).find? (fun kv => kv.1 = k) =
      if d.any (fun kv => kv.1 = k) then some (k, v) else none := by
  induction d with
  | nil => simp
  | cons hd tl ih =>
    simp only [List.map_cons, List.any_cons]
    by_cases h : hd.1 = k
    · simp [h]
    · rw [List.find?_cons_of_neg _ (by simp [h]), ih]
      have hdec : decide (hd.1 = k) = false := by simp [h]
      simp only [hdec, Bool.false_or]

theorem find?_map_set_ne (d : PObj) (k k' : String) (v : JVal) (hk : k' ≠ k) :
    (d.map (fun kv => if kv.1 = k then (k, v) else kv)).find? (fun kv => kv.1 = k') =
      d.find? (fun kv => kv.1 = k') := by
  induction d with
  | nil => simp
  | cons hd tl ih =>
    simp only [List.map_cons]
    by_cases h : hd.1 = k
    · have h1 : ¬(k = k') := fun hh => hk hh.symm
      have h2 : ¬(hd.1 = k') := by rw [h]; exact h1
      rw [if_pos h, List.find?_cons_of_neg _ (by simp [h1]),
        List.find?_cons_of_neg _ (by simp [h2]), ih]
    · rw [if_neg h]
      by_cases h' : hd.1 = k'
      · rw [List.find?_cons_of_pos _ (by simp [h']), List.find?_cons_of_pos _ (by simp [h'])]
      · rw [List.find?_cons_of_neg _ (by simp [h']), List.find?_cons_of_neg _ (by simp [h']), ih]

theorem find?_none_of_not_any (d : PObj) (k : String)
    (h : ¬d.any (fun kv => kv.1 = k) = true) :
    d.find? (fun kv => kv.1 = k) = none := by
  rw [List.find?_eq_none]
  intro x hx
  simp only [decide_eq_true_eq]
  intro hxk
  exact h (List.any_eq_true.mpr ⟨x, hx, by simp [hxk]⟩)

theorem dictGet_dictSet (d : PObj) (k : String) (v : JVal) :
    dictGet (dictSet d k v) k = some v := by
  unfold dictGet dictSet
  split
  · rename_i h
    rw [find?_map_set]
    simp [h]
  · rename_i h
    rw [List.find?_append, find?_none_of_not_any d k h]
    simp

theorem dictGet_dictSet_ne (d : PObj) (k k' : String) (v : JVal) (hk : k' ≠ k) :
    dictGet (dictSet d k v) k' = dictGet d k' := by
  unfold dictGet dictSet
  split
  · rw [find?_map_set_ne d k k' v hk]
  · rw [List.find?_append]
    have hkk : ¬(k = k') := fun hh => hk hh.symm
    match hfind : d.find? (fun kv => decide (kv.1 = k')) with
    | some x => rw [hfind]; simp
    | none => rw [hfind]; simp [hkk]

theorem filter_dictSet_erase (d : PObj) (k : String) (v : JVal)
    (p : String × JVal → Bool) (hp : ∀ w, p (k, w) = false)
    (hstable : ∀ kv w, kv.1 = k → p kv = p (k, w)) :
    (dictSet d k v).filter p = d.filter p := by
  unfold dictSet
  split
  · rename_i hany
    clear hany
    induction d with
    | nil => simp
    | cons hd tl ih =>
      simp only [List.map_cons, List.filter_cons]
      by_cases h : hd.1 = k
      · rw [if_pos h]
        have h2 : p hd = false := by rw [hstable hd v h]; exact hp v
        rw [hp v, h2]
        simpa using ih
      · rw [if_neg h, ih]
  · simp [List.filter_append, hp v]

/-! ## C4, C8: response handling -/

/-- **C4, counterexample.**  The claim is not true of *every* endpoint
method: `new_order` (like ten other typed methods) has a fixed
signature without `**kwargs`, so calling it with `return_status=True`
raises a `TypeError` instead of returning the 2-tuple of parsed body
and status code. -/
theorem return_status_typeerror :
    callEndpointReturnStatus EndpointMethod.new_order (HttpResponse.mk 200 "\x7b\x7d") =
      CallOutcome.typeError
    ∧ callEndpointReturnStatus EndpointMethod.new_order (HttpResponse.mk 200 "\x7b\x7d") ≠
      CallOutcome.result (.withStatus (loads "\x7b\x7d") 200) := by
  refine ⟨rfl, ?_⟩
  decide

/-- **C4** (amended: only `api_query` itself and the endpoint methods
that declare and forward `**kwargs` — `get_past_trades` and
`get_transfers` — accept `return_status`).  For those, passing
`return_status=True` yields the 2-tuple of the parsed JSON body and
the integer HTTP status code, and omitting it yields the parsed body
alone; every other typed endpoint method has a fixed signature, so
passing `return_status=True` raises a `TypeError`. -/
theorem return_status_scope (m : EndpointMethod) (r : HttpResponse) :
    api_query_response true r = .withStatus (loads r.bodyText) r.statusCode
    ∧ api_query_response false r = .bodyOnly (loads r.bodyText)
    ∧ (acceptsKwargs m = true ↔ (m = .get_past_trades ∨ m = .get_transfers))
    ∧ callEndpointReturnStatus m r =
        (if acceptsKwargs m then
          CallOutcome.result (.withStatus (loads r.bodyText) r.statusCode)
        else CallOutcome.typeError) := by
  refine ⟨rfl, rfl, ?_, rfl⟩
  cases m <;> decide

/-- **C8.** The body `api_query` hands back is the JSON-parsed response
text for every response, whatever its status code: no status is
special-cased, no error is raised in its place. -/
theorem body_ignores_status (returnStatus : Bool) (r : HttpResponse) :
    (api_query_response returnStatus r).body = loads r.bodyText := by
  unfold api_query_response
  split <;> rfl

/-! ## C5, C2, C9: the request -/

/-- **C5.** Every request `api_query` sends is an HTTP POST with an
empty body carrying exactly the six headers `Content-Type: text/plain`,
`Content-Length: "0"`, `X-GEMINI-APIKEY` (the public key),
`X-GEMINI-PAYLOAD` (the encoded payload), `X-GEMINI-SIGNATURE` (the
signature) and `Cache-Control: no-cache`. -/
theorem request_headers_exact (c : PrivateClient) (method : String) (payload : Option PObj)
    (ms : Nat) :
    (api_query_request c method payload ms).httpMethod = "POST"
    ∧ (api_query_request c method payload ms).body = ""
    ∧ (api_query_request c method payload ms).headers = [
        ("Content-Type", "text/plain"),
        ("Content-Length", "0"),
        ("X-GEMINI-APIKEY", c.publicKey),
        ("X-GEMINI-PAYLOAD", String.mk (encodedPayload (injectFields (payload.getD []) method ms))),
        ("X-GEMINI-SIGNATURE", String.mk (hmacSha384Hex (utf8Encode c.privateKey.data)
          ((encodedPayload (injectFields (payload.getD []) method ms)).map Char.toNat))),
        ("Cache-Control", "no-cache")] :=
  ⟨rfl, rfl, rfl⟩

/-- **C2.** The signature sent in `X-GEMINI-SIGNATURE` is the hex digest
of HMAC-SHA384 over the base64-encoded payload bytes, keyed by the
UTF-8 bytes of the private key; being a pure function of those bytes,
any independent HMAC-SHA384 computation over the same inputs reproduces
it exactly. -/
theorem signature_is_hmac_sha384 (c : PrivateClient) (method : String) (payload : Option PObj)
    (ms : Nat) :
    (api_query_request c method payload ms).headers.lookup "X-GEMINI-SIGNATURE" =
      some (String.mk (hmacSha384Hex (utf8Encode c.privateKey.data)
        ((encodedPayload (injectFields (payload.getD []) method ms)).map Char.toNat))) := by
  rfl

/-- **C9.** The base URL is the sandbox host exactly when the sandbox
flag is set, the production host `https://api.gemini.com` otherwise,
and every request URL is the base URL concatenated with the endpoint
path. -/
theorem base_url_selection (pub priv : String) (sandbox : Bool) (c : PrivateClient)
    (method : String) (payload : Option PObj) (ms : Nat) :
    (mkPrivateClient pub priv true).baseUrl = "https://api.sandbox.gemini.com"
    ∧ (mkPrivateClient pub priv false).baseUrl = "https://api.gemini.com"
    ∧ (mkPrivateClient pub priv sandbox).baseUrl =
        (if sandbox then "https://api.sandbox.gemini.com" else "https://api.gemini.com")
    ∧ (api_query_request c method payload ms).url = c.baseUrl ++ method :=
  ⟨rfl, rfl, rfl, rfl⟩

/-! ## C6, C7: endpoint payloads -/

/-- **C6.** `new_order` with the four positional arguments sends to
`/v1/order/new` a payload holding `type: "exchange limit"`, the default
`options: ["immediate-or-cancel"]`, and the four arguments verbatim
under `symbol`, `amount`, `price` and `side`. -/
theorem new_order_payload_fields (c : PrivateClient) (symbol amount price side : String)
    (ms : Nat) :
    new_order_request_default c symbol amount price side ms =
      api_query_request c "/v1/order/new"
        (some (new_order_payload symbol amount price side defaultOptions)) ms
    ∧ defaultOptions = [JPrim.str "immediate-or-cancel"]
    ∧ dictGet (new_order_payload symbol amount price side defaultOptions) "type" =
        some (.prim (.str "exchange limit"))
    ∧ dictGet (new_order_payload symbol amount price side defaultOptions) "options" =
        some (.arr [.str "immediate-or-cancel"])
    ∧ dictGet (new_order_payload symbol amount price side defaultOptions) "symbol" =
        some (.prim (.str symbol))
    ∧ dictGet (new_order_payload symbol amount price side defaultOptions) "amount" =
        some (.prim (.str amount))
    ∧ dictGet (new_order_payload symbol amount price side defaultOptions) "price" =
        some (.prim (.str price))
    ∧ dictGet (new_order_payload symbol amount price side defaultOptions) "side" =
        some (.prim (.str side)) :=
  ⟨rfl, rfl, rfl, rfl, rfl, rfl, rfl, rfl⟩

/-- **C7.** `create_deposit_address` without a label sends an empty
payload (no `label` key) to the path-templated endpoint
`/v1/deposit/.../newAddress`; with the label `"vault"` it sends the
payload holding exactly `label: "vault"`. -/
theorem create_deposit_address_shape (c : PrivateClient) (currency : String) (ms : Nat) :
    create_deposit_address_payload none = []
    ∧ dictGet (create_deposit_address_payload none) "label" = none
    ∧ create_deposit_address_payload (some "vault") = [("label", .prim (.str "vault"))]
    ∧ create_deposit_address_request c currency none ms =
        api_query_request c ("/v1/deposit/" ++ currency ++ "/newAddress") (some []) ms
    ∧ create_deposit_address_request c currency (some "vault") ms =
        api_query_request c ("/v1/deposit/" ++ currency ++ "/newAddress")
          (some [("label", .prim (.str "vault"))]) ms :=
  ⟨rfl, rfl, rfl, rfl, rfl⟩

/-! ## C10: in-place mutation of the caller's payload dict -/

/-- **C10.** `api_query` writes the `request` and `nonce` keys into the
very dict the caller passed (overwriting existing values under those
keys): after the call the caller's own object carries the injected
fields, no fresh dict is allocated, and a second call through the same
reference operates on the previously mutated object. -/
theorem api_query_mutates_payload (method1 method2 : String) (r ms1 ms2 : Nat) (h : Heap)
    (hr : r < h.length) :
    (api_query_heap method1 (some r) ms1 h).2 = r
    ∧ (api_query_heap method1 (some r) ms1 h).1.length = h.length
    ∧ (api_query_heap method1 (some r) ms1 h).1.getD r [] =
        injectFields (h.getD r []) method1 ms1
    ∧ dictGet ((api_query_heap method1 (some r) ms1 h).1.getD r []) "request" =
        some (.prim (.str method1))
    ∧ dictGet ((api_query_heap method1 (some r) ms1 h).1.getD r []) "nonce" =
        some (.prim (.str (String.mk (pyNonce ms1))))
    ∧ (api_query_heap method2 (some r) ms2 (api_query_heap method1 (some r) ms1 h).1).1.getD r [] =
        injectFields (injectFields (h.getD r []) method1 ms1) method2 ms2 := by
  have hset : ∀ (hp : Heap) (x : PObj), r < hp.length → (hp.set r x).getD r [] = x := by
    intro hp x hlen
    rw [List.getD_eq_getElem?_getD, List.getElem?_set_eq_of_lt _ hlen]
    rfl
  have h3 : (api_query_heap method1 (some r) ms1 h).1.getD r [] =
      injectFields (h.getD r []) method1 ms1 := hset h _ hr
  refine ⟨rfl, by simp [api_query_heap], h3, ?_, ?_, ?_⟩
  · rw [h3]
    unfold injectFields
    rw [dictGet_dictSet_ne _ _ _ _ (by decide), dictGet_dictSet]
  · rw [h3]
    unfold injectFields
    rw [dictGet_dictSet]
  · show ((h.set r _).set r _).getD r [] = _
    rw [List.set_set, hset h _ hr, h3]

/-- Witness for C10 at a concrete heap: one dict holding an `order_id`
field, written through twice. -/
theorem api_query_mutates_payload_witness :
    (api_query_heap "/v1/order/status" (some 0) 7
        (api_query_heap "/v1/order/new" (some 0) 5
          [[("order_id", JVal.prim (.str "86403510"))]]).1).1.getD 0 [] =
      injectFields (injectFields [("order_id", JVal.prim (.str "86403510"))] "/v1/order/new" 5)
        "/v1/order/status" 7 :=
  (api_query_mutates_payload "/v1/order/new" "/v1/order/status" 0 5 7
    [[("order_id", JVal.prim (.str "86403510"))]] (by decide)).2.2.2.2.2

/-! ## C1: the nonce -/

theorem padLoop_eq : ∀ (fuel : Nat) (s : List Char), TIME_LENGTH - s.length ≤ fuel →
    padLoop fuel s = s ++ List.replicate (TIME_LENGTH - s.length) '0' := by
  intro fuel
  induction fuel with
  | zero =>
    intro s hs
    have : TIME_LENGTH - s.length = 0 := Nat.le_zero.mp hs
    simp [padLoop, this]
  | succ f ih =>
    intro s hs
    unfold padLoop
    split
    · rename_i hlt
      rw [ih (s ++ ['0']) (by simp; omega)]
      have hrep : TIME_LENGTH - s.length = (TIME_LENGTH - (s ++ ['0']).length) + 1 := by
        simp; omega
      rw [hrep, List.replicate_succ, List.append_assoc]
      simp
    · rename_i hge
      have : TIME_LENGTH - s.length = 0 := by omega
      simp [this]

theorem natToCharsAux_fuel_irrel : ∀ (f1 : Nat), ∀ (f2 n : Nat), n < 10 ^ (f1 + 1) →
    n < 10 ^ (f2 + 1) → natToCharsAux (f1 + 1) n = natToCharsAux (f2 + 1) n := by
  intro f1
  induction f1 with
  | zero =>
    intro f2 n h1 _
    have hn : n < 10 := by simpa using h1
    simp [natToCharsAux, hn]
  | succ f ih =>
    intro f2 n h1 h2
    by_cases hn : n < 10
    · simp [natToCharsAux, hn]
    · match f2 with
      | 0 => exact absurd (by simpa using h2) hn
      | g + 1 =>
        show natToCharsAux (f + 1 + 1) n = natToCharsAux (g + 1 + 1) n
        unfold natToCharsAux
        rw [if_neg hn, if_neg hn]
        have hdiv1 : n / 10 < 10 ^ (f + 1) := by
          rw [Nat.div_lt_iff_lt_mul (by norm_num)]
          calc n < 10 ^ (f + 1 + 1) := h1
          _ = 10 ^ (f + 1) * 10 := by ring
        have hdiv2 : n / 10 < 10 ^ (g + 1) := by
          rw [Nat.div_lt_iff_lt_mul (by norm_num)]
          calc n < 10 ^ (g + 1 + 1) := h2
          _ = 10 ^ (g + 1) * 10 := by ring
        rw [ih g (n / 10) hdiv1 hdiv2]

theorem natToCharsAux_length : ∀ (f n : Nat), n < 10 ^ f → (natToCharsAux f n).length ≤ f := by
  intro f
  induction f with
  | zero => intro n _; simp [natToCharsAux]
  | succ f ih =>
    intro n h
    by_cases hn : n < 10
    · simp [natToCharsAux, hn]
    · unfold natToCharsAux
      rw [if_neg hn]
      have hdiv : n / 10 < 10 ^ f := by
        rw [Nat.div_lt_iff_lt_mul (by norm_num)]
        calc n < 10 ^ (f + 1) := h
        _ = 10 ^ f * 10 := by ring
      have := ih (n / 10) hdiv
      simp only [List.length_append, List.length_cons, List.length_nil]
      omega

theorem natToChars_length_le (n k : Nat) (hk : 1 ≤ k) (h : n < 10 ^ k) :
    (natToChars n).length ≤ k := by
  have hself : n < 10 ^ (n + 1) :=
    lt_of_lt_of_le (Nat.lt_pow_self (by norm_num) n)
      (Nat.pow_le_pow_right (by norm_num) (Nat.le_succ n))
  have hk' : k = (k - 1) + 1 := by omega
  have h2 : n < 10 ^ ((k - 1) + 1) := by rw [← hk']; exact h
  unfold natToChars
  rw [natToCharsAux_fuel_irrel n (k - 1) n hself h2]
  have := natToCharsAux_length ((k - 1) + 1) n h2
  omega

/-- **C1.** The nonce `api_query` injects is the decimal string of the
current Unix time in milliseconds with `'0'` characters appended on the
right until its length reaches `TIME_LENGTH = 18`, and (for any
millisecond timestamp below `10 ^ 18`, i.e. any actual clock reading)
its length is exactly 18. -/
theorem nonce_shape (ms : Nat) (p : PObj) (method : String) (h : ms < 10 ^ 18) :
    dictGet (injectFields p method ms) "nonce" =
        some (.prim (.str (String.mk (pyNonce ms))))
    ∧ pyNonce ms = natToChars ms ++ List.replicate (TIME_LENGTH - (natToChars ms).length) '0'
    ∧ (pyNonce ms).length = TIME_LENGTH := by
  have h1 : pyNonce ms =
      natToChars ms ++ List.replicate (TIME_LENGTH - (natToChars ms).length) '0' :=
    padLoop_eq TIME_LENGTH (natToChars ms) (Nat.sub_le _ _)
  have hlen : (natToChars ms).length ≤ 18 := natToChars_length_le ms 18 (by norm_num) h
  refine ⟨?_, h1, ?_⟩
  · unfold injectFields
    rw [dictGet_dictSet]
  · rw [h1]
    simp only [List.length_append, List.length_replicate]
    show _ + (18 - _) = 18
    omega

/-- Witness for C1 at the timestamp `1650000000123` the specification
itself uses as its example. -/
theorem nonce_shape_witness :
    dictGet (injectFields [] "/v1/balances" 1650000000123) "nonce" =
        some (.prim (.str (String.mk (pyNonce 1650000000123))))
    ∧ pyNonce 1650000000123 =
      natToChars 1650000000123 ++
        List.replicate (TIME_LENGTH - (natToChars 1650000000123).length) '0'
    ∧ (pyNonce 1650000000123).length = TIME_LENGTH :=
  nonce_shape 1650000000123 [] "/v1/balances" (by norm_num)

/-! ## Base64 round trip -/

theorem b64CharVal_b64Char (n : Nat) (h : n < 64) : b64CharVal (b64Char n) = some n := by
  have hfin : ∀ m : Fin 64, b64CharVal (b64Char m.val) = some m.val := by decide
  exact hfin ⟨n, h⟩

theorem b64Char_ne_pad (n : Nat) (h : n < 64) : ¬(b64Char n = '=') := by
  have hfin : ∀ m : Fin 64, ¬(b64Char m.val = '=') := by decide
  exact hfin ⟨n, h⟩

theorem b64_roundtrip (l : List Nat) (h : ∀ b ∈ l, b < 256) :
    b64Decode (b64Encode l) = some l := by
  match l with
  | [] => rfl
  | [b1] =>
    have hb1 : b1 < 256 := h b1 (by simp)
    have e1 : b64CharVal (b64Char (b1 / 4)) = some (b1 / 4) :=
      b64CharVal_b64Char _ (by omega)
    have e2 : b64CharVal (b64Char (b1 % 4 * 16)) = some (b1 % 4 * 16) :=
      b64CharVal_b64Char _ (by omega)
    simp only [b64Encode, b64Decode]
    simp [e1, e2]
    omega
  | [b1, b2] =>
    have hb1 : b1 < 256 := h b1 (by simp)
    have hb2 : b2 < 256 := h b2 (by simp)
    have e1 : b64CharVal (b64Char (b1 / 4)) = some (b1 / 4) :=
      b64CharVal_b64Char _ (by omega)
    have e2 : b64CharVal (b64Char (b1 % 4 * 16 + b2 / 16)) = some (b1 % 4 * 16 + b2 / 16) :=
      b64CharVal_b64Char _ (by omega)
    have ne3 : ¬(b64Char (b2 % 16 * 4) = '=') := b64Char_ne_pad _ (by omega)
    have e3 : b64CharVal (b64Char (b2 % 16 * 4)) = some (b2 % 16 * 4) :=
      b64CharVal_b64Char _ (by omega)
    simp only [b64Encode, b64Decode]
    simp [e1, e2, e3, ne3]
    omega
  | b1 :: b2 :: b3 :: rest =>
    have hb1 : b1 < 256 := h b1 (by simp)
    have hb2 : b2 < 256 := h b2 (by simp)
    have hb3 : b3 < 256 := h b3 (by simp)
    have ih := b64_roundtrip rest (fun b hb => h b (by simp [hb]))
    have e1 : b64CharVal (b64Char (b1 / 4)) = some (b1 / 4) :=
      b64CharVal_b64Char _ (by omega)
    have e2 : b64CharVal (b64Char (b1 % 4 * 16 + b2 / 16)) = some (b1 % 4 * 16 + b2 / 16) :=
      b64CharVal_b64Char _ (by omega)
    have ne3 : ¬(b64Char (b2 % 16 * 4 + b3 / 64) = '=') := b64Char_ne_pad _ (by omega)
    have e3 : b64CharVal (b64Char (b2 % 16 * 4 + b3 / 64)) = some (b2 % 16 * 4 + b3 / 64) :=
      b64CharVal_b64Char _ (by omega)
    have ne4 : ¬(b64Char (b3 % 64) = '=') := b64Char_ne_pad _ (by omega)
    have e4 : b64CharVal (b64Char (b3 % 64)) = some (b3 % 64) :=
      b64CharVal_b64Char _ (by omega)
    simp only [b64Encode, b64Decode]
    simp [e1, e2, e3, e4, ne3, ne4, ih]
    omega

/-! ## UTF-8 round trip -/

theorem char_toNat_valid (c : Char) : c.toNat < 1114112 ∧ (c.toNat < 55296 ∨ 57344 ≤ c.toNat) := by
  simp only [Char.toNat]
  rcases c.valid with h | ⟨h1, h2⟩ <;> omega

theorem utf8EncodeChar_lt (c : Char) : ∀ b ∈ utf8EncodeChar c, b < 256 := by
  obtain ⟨hub, _⟩ := char_toNat_valid c
  intro b hb
  unfold utf8EncodeChar at hb
  by_cases h1 : c.toNat < 128
  · rw [if_pos h1] at hb; simp at hb; omega
  · rw [if_neg h1] at hb
    by_cases h2 : c.toNat < 2048
    · rw [if_pos h2] at hb; simp at hb; rcases hb with hb | hb <;> omega
    · rw [if_neg h2] at hb
      by_cases h3 : c.toNat < 65536
      · rw [if_pos h3] at hb; simp at hb; rcases hb with hb | hb | hb <;> omega
      · rw [if_neg h3] at hb; simp at hb; rcases hb with hb | hb | hb | hb <;> omega

theorem utf8Encode_lt (s : List Char) : ∀ b ∈ utf8Encode s, b < 256 := by
  intro b hb
  unfold utf8Encode at hb
  rw [List.mem_flatten] at hb
  obtain ⟨l, hl, hbl⟩ := hb
  rw [List.mem_map] at hl
  obtain ⟨c, _, rfl⟩ := hl
  exact utf8EncodeChar_lt c b hbl

theorem utf8EncodeChar_ne_nil (c : Char) : utf8EncodeChar c ≠ [] := by
  unfold utf8EncodeChar
  split
  · simp
  · split
    · simp
    · split <;> simp

theorem utf8DecodeStep_encodeChar (c : Char) (rest : List Nat) :
    utf8DecodeStep (utf8EncodeChar c ++ rest) = some (c, rest) := by
  obtain ⟨hub, hs⟩ := char_toNat_valid c
  unfold utf8EncodeChar
  by_cases h1 : c.toNat < 128
  · rw [if_pos h1]
    show utf8DecodeStep (c.toNat :: rest) = _
    simp only [utf8DecodeStep]
    rw [if_pos h1, Char.ofNat_toNat]
  · rw [if_neg h1]
    by_cases h2 : c.toNat < 2048
    · rw [if_pos h2]
      show utf8DecodeStep ((192 + c.toNat / 64) :: (128 + c.toNat % 64) :: rest) = _
      simp only [utf8DecodeStep]
      rw [if_neg (by omega), if_neg (by omega), if_pos (by omega)]
      have hcont : isCont (128 + c.toNat % 64) = true := by simp [isCont]; omega
      have harith : (192 + c.toNat / 64 - 192) * 64 + (128 + c.toNat % 64 - 128) = c.toNat := by
        omega
      simp only [hcont, if_true, harith]
      rw [if_pos (by omega), Char.ofNat_toNat]
    · rw [if_neg h2]
      by_cases h3 : c.toNat < 65536
      · rw [if_pos h3]
        show utf8DecodeStep ((224 + c.toNat / 4096) :: (128 + c.toNat / 64 % 64) ::
          (128 + c.toNat % 64) :: rest) = _
        simp only [utf8DecodeStep]
        rw [if_neg (by omega), if_neg (by omega), if_neg (by omega), if_pos (by omega)]
        have hcont : (isCont (128 + c.toNat / 64 % 64) && isCont (128 + c.toNat % 64)) = true := by
          simp [isCont]; omega
        have harith : (224 + c.toNat / 4096 - 224) * 4096 + (128 + c.toNat / 64 % 64 - 128) * 64 +
            (128 + c.toNat % 64 - 128) = c.toNat := by omega
        simp only [hcont, if_true, harith]
        rw [if_pos (by simp only [decide_eq_true_eq, Bool.and_eq_true, Bool.or_eq_true]; omega),
          Char.ofNat_toNat]
      · rw [if_neg h3]
        show utf8DecodeStep ((240 + c.toNat / 262144) :: (128 + c.toNat / 4096 % 64) ::
          (128 + c.toNat / 64 % 64) :: (128 + c.toNat % 64) :: rest) = _
        simp only [utf8DecodeStep]
        rw [if_neg (by omega), if_neg (by omega), if_neg (by omega), if_neg (by omega),
          if_pos (by omega)]
        have hcont : (isCont (128 + c.toNat / 4096 % 64) && isCont (128 + c.toNat / 64 % 64) &&
            isCont (128 + c.toNat % 64)) = true := by
          simp [isCont]; omega
        have harith : (240 + c.toNat / 262144 - 240) * 262144 +
            (128 + c.toNat / 4096 % 64 - 128) * 4096 +
            (128 + c.toNat / 64 % 64 - 128) * 64 + (128 + c.toNat % 64 - 128) = c.toNat := by
          omega
        simp only [hcont, if_true, harith]
        rw [if_pos (by simp only [decide_eq_true_eq, Bool.and_eq_true]; omega), Char.ofNat_toNat]

theorem utf8DecodeAux_encode : ∀ (s : List Char) (fuel : Nat), s.length ≤ fuel →
    utf8DecodeAux fuel (utf8Encode s) = some s := by
  intro s
  induction s with
  | nil =>
    intro fuel _
    show utf8DecodeAux fuel [] = some []
    cases fuel <;> rfl
  | cons c cs ih =>
    intro fuel hf
    match fuel with
    | f + 1 =>
      obtain ⟨e, es, hee⟩ : ∃ e es, utf8EncodeChar c = e :: es := by
        match hx : utf8EncodeChar c with
        | [] => exact absurd hx (utf8EncodeChar_ne_nil c)
        | e :: es => exact ⟨e, es, rfl⟩
      have hene : utf8Encode (c :: cs) = e :: (es ++ utf8Encode cs) := by
        simp [utf8Encode, hee]
      rw [hene]
      have hstep : utf8DecodeStep (e :: (es ++ utf8Encode cs)) = some (c, utf8Encode cs) := by
        rw [show e :: (es ++ utf8Encode cs) = (e :: es) ++ utf8Encode cs from rfl, ← hee]
        exact utf8DecodeStep_encodeChar c (utf8Encode cs)
      show utf8DecodeAux (f + 1) (e :: (es ++ utf8Encode cs)) = _
      simp only [utf8DecodeAux, hstep, ih f (by simpa using hf)]
      rfl

theorem utf8Encode_length_ge (s : List Char) : s.length ≤ (utf8Encode s).length := by
  induction s with
  | nil => simp [utf8Encode]
  | cons c cs ih =>
    have : utf8Encode (c :: cs) = utf8EncodeChar c ++ utf8Encode cs := by simp [utf8Encode]
    rw [this]
    have hpos : 0 < (utf8EncodeChar c).length :=
      List.length_pos.mpr (utf8EncodeChar_ne_nil c)
    simp only [List.length_append, List.length_cons]
    omega

theorem utf8_roundtrip (s : List Char) : utf8Decode (utf8Encode s) = some s :=
  utf8DecodeAux_encode s (utf8Encode s).length (utf8Encode_length_ge s)

/-! ## JSON parser round trip: strings -/

theorem char_ne {a b : Char} (h : a.toNat ≠ b.toNat) : a ≠ b :=
  fun he => h (congrArg Char.toNat he)

theorem hexVal_hexChar (d : Nat) (h : d < 16) : hexVal (hexChar d) = some d := by
  have hfin : ∀ m : Fin 16, hexVal (hexChar m.val) = some m.val := by decide
  exact hfin ⟨d, h⟩

theorem hex4Val_hex4 (n : Nat) (h : n < 65536) :
    hex4Val (hexChar (n / 4096 % 16)) (hexChar (n / 256 % 16)) (hexChar (n / 16 % 16))
      (hexChar (n % 16)) = some n := by
  unfold hex4Val
  rw [hexVal_hexChar _ (by omega), hexVal_hexChar _ (by omega), hexVal_hexChar _ (by omega),
    hexVal_hexChar _ (by omega)]
  show some _ = some n
  congr 1
  omega

theorem bsl_ne_dq : ¬bsl = dq := by decide

theorem chB_ne_dq : ¬('b' : Char) = dq := by decide

theorem chB_ne_bsl : ¬('b' : Char) = bsl := by decide

theorem chT_ne_dq : ¬('t' : Char) = dq := by decide

theorem chT_ne_bsl : ¬('t' : Char) = bsl := by decide

theorem chN_ne_dq : ¬('n' : Char) = dq := by decide

theorem chN_ne_bsl : ¬('n' : Char) = bsl := by decide

theorem chF_ne_dq : ¬('f' : Char) = dq := by decide

theorem chF_ne_bsl : ¬('f' : Char) = bsl := by decide

theorem chR_ne_dq : ¬('r' : Char) = dq := by decide

theorem chR_ne_bsl : ¬('r' : Char) = bsl := by decide

theorem chU_ne_dq : ¬('u' : Char) = dq := by decide

theorem chU_ne_bsl : ¬('u' : Char) = bsl := by decide

theorem strCharStep_u (h1 h2 h3 h4 : Char) (rest : List Char) :
    strCharStep (bsl :: 'u' :: h1 :: h2 :: h3 :: h4 :: rest) =
      match hex4Val h1 h2 h3 h4 with
      | none => none
      | some n =>
        if n < 55296 || 57344 ≤ n then some (Char.ofNat n, rest)
        else if n < 56320 then
          match rest with
          | b1 :: e2 :: g1 :: g2 :: g3 :: g4 :: rest4 =>
            if b1 = bsl && e2 = 'u' then
              match hex4Val g1 g2 g3 g4 with
              | none => none
              | some m =>
                if 56320 ≤ m && m < 57344 then
                  some (Char.ofNat (65536 + (n - 55296) * 1024 + (m - 56320)), rest4)
                else none
            else none
          | _ => none
        else none := by
  simp [strCharStep, bsl_ne_dq, chU_ne_dq, chU_ne_bsl]

theorem strCharStep_escapeChar (c : Char) (tail : List Char) :
    strCharStep (escapeChar c ++ tail) = some (c, tail) := by
  obtain ⟨hub, hs⟩ := char_toNat_valid c
  unfold escapeChar
  by_cases hq : c = dq
  · rw [if_pos hq]
    show strCharStep (bsl :: dq :: tail) = _
    simp [strCharStep, hq, bsl_ne_dq]
  · rw [if_neg hq]
    by_cases hb : c = bsl
    · rw [if_pos hb]
      show strCharStep (bsl :: bsl :: tail) = _
      simp [strCharStep, hb, bsl_ne_dq]
    · rw [if_neg hb]
      by_cases h8 : c.toNat = 8
      · rw [if_pos h8]
        show strCharStep (bsl :: 'b' :: tail) = _
        simp [strCharStep, bsl_ne_dq, chB_ne_dq, chB_ne_bsl]
        rw [← h8, Char.ofNat_toNat]
      · rw [if_neg h8]
        by_cases h9 : c.toNat = 9
        · rw [if_pos h9]
          show strCharStep (bsl :: 't' :: tail) = _
          simp [strCharStep, bsl_ne_dq, chT_ne_dq, chT_ne_bsl]
          rw [← h9, Char.ofNat_toNat]
        · rw [if_neg h9]
          by_cases h10 : c.toNat = 10
          · rw [if_pos h10]
            show strCharStep (bsl :: 'n' :: tail) = _
            simp [strCharStep, bsl_ne_dq, chN_ne_dq, chN_ne_bsl]
            rw [← h10, Char.ofNat_toNat]
          · rw [if_neg h10]
            by_cases h12 : c.toNat = 12
            · rw [if_pos h12]
              show strCharStep (bsl :: 'f' :: tail) = _
              simp [strCharStep, bsl_ne_dq, chF_ne_dq, chF_ne_bsl]
              rw [← h12, Char.ofNat_toNat]
            · rw [if_neg h12]
              by_cases h13 : c.toNat = 13
              · rw [if_pos h13]
                show strCharStep (bsl :: 'r' :: tail) = _
                simp [strCharStep, bsl_ne_dq, chR_ne_dq, chR_ne_bsl]
                rw [← h13, Char.ofNat_toNat]
              · rw [if_neg h13]
                by_cases hc1 : c.toNat < 32
                · rw [if_pos hc1]
                  have he : hex4Val (hexChar (c.toNat / 4096 % 16)) (hexChar (c.toNat / 256 % 16))
                      (hexChar (c.toNat / 16 % 16)) (hexChar (c.toNat % 16)) = some c.toNat :=
                    hex4Val_hex4 c.toNat (by omega)
                  show strCharStep (bsl :: 'u' :: hexChar (c.toNat / 4096 % 16) ::
                    hexChar (c.toNat / 256 % 16) :: hexChar (c.toNat / 16 % 16) ::
                    hexChar (c.toNat % 16) :: tail) = _
                  simp [strCharStep, he, Char.ofNat_toNat, bsl_ne_dq, chU_ne_dq, chU_ne_bsl]
                  omega
                · rw [if_neg hc1]
                  by_cases hc2 : c.toNat < 127
                  · rw [if_pos hc2]
                    show strCharStep (c :: tail) = _
                    simp only [strCharStep]
                    rw [if_neg hq, if_neg hb, if_neg hc1]
                  · rw [if_neg hc2]
                    by_cases hc3 : c.toNat < 65536
                    · rw [if_pos hc3]
                      have he : hex4Val (hexChar (c.toNat / 4096 % 16))
                          (hexChar (c.toNat / 256 % 16)) (hexChar (c.toNat / 16 % 16))
                          (hexChar (c.toNat % 16)) = some c.toNat :=
                        hex4Val_hex4 c.toNat (by omega)
                      show strCharStep (bsl :: 'u' :: hexChar (c.toNat / 4096 % 16) ::
                        hexChar (c.toNat / 256 % 16) :: hexChar (c.toNat / 16 % 16) ::
                        hexChar (c.toNat % 16) :: tail) = _
                      simp [strCharStep, he, Char.ofNat_toNat, bsl_ne_dq, chU_ne_dq, chU_ne_bsl]
                      omega
                    · rw [if_neg hc3]
                      have hehi : hex4Val (hexChar ((55296 + (c.toNat - 65536) / 1024) / 4096 % 16))
                          (hexChar ((55296 + (c.toNat - 65536) / 1024) / 256 % 16))
                          (hexChar ((55296 + (c.toNat - 65536) / 1024) / 16 % 16))
                          (hexChar ((55296 + (c.toNat - 65536) / 1024) % 16)) =
                            some (55296 + (c.toNat - 65536) / 1024) :=
                        hex4Val_hex4 _ (by omega)
                      have helo : hex4Val (hexChar ((56320 + (c.toNat - 65536) % 1024) / 4096 % 16))
                          (hexChar ((56320 + (c.toNat - 65536) % 1024) / 256 % 16))
                          (hexChar ((56320 + (c.toNat - 65536) % 1024) / 16 % 16))
                          (hexChar ((56320 + (c.toNat - 65536) % 1024) % 16)) =
                            some (56320 + (c.toNat - 65536) % 1024) :=
                        hex4Val_hex4 _ (by omega)
                      show strCharStep (bsl :: 'u' ::
                        hexChar ((55296 + (c.toNat - 65536) / 1024) / 4096 % 16) ::
                        hexChar ((55296 + (c.toNat - 65536) / 1024) / 256 % 16) ::
                        hexChar ((55296 + (c.toNat - 65536) / 1024) / 16 % 16) ::
                        hexChar ((55296 + (c.toNat - 65536) / 1024) % 16) :: bsl :: 'u' ::
                        hexChar ((56320 + (c.toNat - 65536) % 1024) / 4096 % 16) ::
                        hexChar ((56320 + (c.toNat - 65536) % 1024) / 256 % 16) ::
                        hexChar ((56320 + (c.toNat - 65536) % 1024) / 16 % 16) ::
                        hexChar ((56320 + (c.toNat - 65536) % 1024) % 16) :: tail) = _
                      rw [strCharStep_u]
                      simp only [hehi]
                      rw [if_neg (by simp only [Bool.or_eq_true, decide_eq_true_eq]; omega)]
                      rw [if_pos (by omega)]
                      simp only [helo]
                      rw [if_pos (by decide)]
                      rw [if_pos (by simp only [Bool.and_eq_true, decide_eq_true_eq]; omega)]
                      rw [show 65536 + (55296 + (c.toNat - 65536) / 1024 - 55296) * 1024 +
                          (56320 + (c.toNat - 65536) % 1024 - 56320) = c.toNat from by omega,
                        Char.ofNat_toNat]

theorem escapeChar_head_ne_dq (c : Char) : ∃ e es, escapeChar c = e :: es ∧ ¬(e = dq) := by
  unfold escapeChar
  by_cases hq : c = dq
  · rw [if_pos hq]; exact ⟨bsl, _, rfl, bsl_ne_dq⟩
  · rw [if_neg hq]
    by_cases hb : c = bsl
    · rw [if_pos hb]; exact ⟨bsl, _, rfl, bsl_ne_dq⟩
    · rw [if_neg hb]
      by_cases h8 : c.toNat = 8
      · rw [if_pos h8]; exact ⟨bsl, _, rfl, bsl_ne_dq⟩
      · rw [if_neg h8]
        by_cases h9 : c.toNat = 9
        · rw [if_pos h9]; exact ⟨bsl, _, rfl, bsl_ne_dq⟩
        · rw [if_neg h9]
          by_cases h10 : c.toNat = 10
          · rw [if_pos h10]; exact ⟨bsl, _, rfl, bsl_ne_dq⟩
          · rw [if_neg h10]
            by_cases h12 : c.toNat = 12
            · rw [if_pos h12]; exact ⟨bsl, _, rfl, bsl_ne_dq⟩
            · rw [if_neg h12]
              by_cases h13 : c.toNat = 13
              · rw [if_pos h13]; exact ⟨bsl, _, rfl, bsl_ne_dq⟩
              · rw [if_neg h13]
                by_cases hc1 : c.toNat < 32
                · rw [if_pos hc1]; exact ⟨bsl, _, rfl, bsl_ne_dq⟩
                · rw [if_neg hc1]
                  by_cases hc2 : c.toNat < 127
                  · rw [if_pos hc2]; exact ⟨c, [], rfl, hq⟩
                  · rw [if_neg hc2]
                    by_cases hc3 : c.toNat < 65536
                    · rw [if_pos hc3]; exact ⟨bsl, _, rfl, bsl_ne_dq⟩
                    · rw [if_neg hc3]; exact ⟨bsl, _, rfl, bsl_ne_dq⟩

theorem parseStrBodyAux_escape : ∀ (cs : List Char) (fuel : Nat) (rest : List Char),
    cs.length ≤ fuel →
    parseStrBodyAux fuel ((cs.map escapeChar).flatten ++ dq :: rest) = some (cs, rest) := by
  intro cs
  induction cs with
  | nil =>
    intro fuel rest _
    show parseStrBodyAux fuel (dq :: rest) = _
    unfold parseStrBodyAux
    rw [if_pos rfl]
  | cons c cs' ih =>
    intro fuel rest hf
    obtain ⟨e, es, hee, hene⟩ := escapeChar_head_ne_dq c
    have hflat : ((c :: cs').map escapeChar).flatten ++ dq :: rest =
        e :: (es ++ ((cs'.map escapeChar).flatten ++ dq :: rest)) := by
      simp only [List.map_cons, List.flatten_cons, hee, List.cons_append, List.append_assoc]
    rw [hflat]
    match fuel, hf with
    | f + 1, hf =>
      have hstep : strCharStep (e :: (es ++ ((cs'.map escapeChar).flatten ++ dq :: rest))) =
          some (c, (cs'.map escapeChar).flatten ++ dq :: rest) := by
        rw [show e :: (es ++ ((cs'.map escapeChar).flatten ++ dq :: rest)) =
          (e :: es) ++ ((cs'.map escapeChar).flatten ++ dq :: rest) from rfl, ← hee]
        exact strCharStep_escapeChar c _
      show parseStrBodyAux (f + 1) (e :: (es ++ _)) = _
      unfold parseStrBodyAux
      rw [if_neg hene, hstep]
      simp only [ih f rest (by simpa using hf)]
      rfl

theorem escape_flatten_len (cs : List Char) : cs.length ≤ ((cs.map escapeChar).flatten).length := by
  induction cs with
  | nil => simp
  | cons c cs' ih =>
    obtain ⟨e, es, hee, _⟩ := escapeChar_head_ne_dq c
    simp only [List.map_cons, List.flatten_cons, List.length_append, List.length_cons, hee]
    omega

theorem parseStrBody_escape (cs : List Char) (rest : List Char) :
    parseStrBody ((cs.map escapeChar).flatten ++ dq :: rest) = some (cs, rest) := by
  unfold parseStrBody
  apply parseStrBodyAux_escape
  calc cs.length ≤ ((cs.map escapeChar).flatten).length := escape_flatten_len cs
  _ ≤ (((cs.map escapeChar)).flatten ++ dq :: rest).length := by simp

/-! ## JSON parser round trip: numbers and primitives -/

theorem digitChar_toNat (d : Nat) (h : d < 10) : (digitChar d).toNat = 48 + d := by
  have hfin : ∀ m : Fin 10, (digitChar m.val).toNat = 48 + m.val := by decide
  exact hfin ⟨d, h⟩

theorem isDigitCh_digitChar (d : Nat) (h : d < 10) : isDigitCh (digitChar d) = true := by
  have hfin : ∀ m : Fin 10, isDigitCh (digitChar m.val) = true := by decide
  exact hfin ⟨d, h⟩

theorem natToCharsAux_mem (f n : Nat) : ∀ c ∈ natToCharsAux f n, ∃ d, d < 10 ∧ c = digitChar d := by
  induction f generalizing n with
  | zero => intro c hc; simp [natToCharsAux] at hc
  | succ f ih =>
    intro c hc
    unfold natToCharsAux at hc
    by_cases hn : n < 10
    · rw [if_pos hn] at hc
      simp at hc
      exact ⟨n, hn, hc⟩
    · rw [if_neg hn] at hc
      rw [List.mem_append] at hc
      rcases hc with hc | hc
      · exact ih (n / 10) c hc
      · simp at hc
        exact ⟨n % 10, by omega, hc⟩

theorem natToCharsAux_ne_nil (f n : Nat) : natToCharsAux (f + 1) n ≠ [] := by
  unfold natToCharsAux
  by_cases hn : n < 10
  · rw [if_pos hn]; simp
  · rw [if_neg hn]; simp

theorem parseDigits_cons (c : Char) (rest : List Char) (acc : Nat) (h : isDigitCh c = true) :
    parseDigits (c :: rest) acc = parseDigits rest (acc * 10 + (c.toNat - 48)) := by
  simp only [parseDigits]
  rw [if_pos h]

theorem parseDigits_natToCharsAux : ∀ (f n acc : Nat) (rest : List Char), n < 10 ^ f →
    parseDigits (natToCharsAux f n ++ rest) acc =
      parseDigits rest (acc * 10 ^ (natToCharsAux f n).length + n) := by
  intro f
  induction f with
  | zero =>
    intro n acc rest h
    have hz : n = 0 := by simpa using h
    subst hz
    show parseDigits ([] ++ rest) acc = parseDigits rest (acc * 10 ^ (List.length []) + 0)
    simp
  | succ f ih =>
    intro n acc rest h
    by_cases hn : n < 10
    · have hout : natToCharsAux (f + 1) n = [digitChar n] := by
        simp only [natToCharsAux]; rw [if_pos hn]
      rw [hout]
      show parseDigits (digitChar n :: rest) acc = _
      rw [parseDigits_cons _ _ _ (isDigitCh_digitChar n hn), digitChar_toNat n hn]
      congr 1
      simp only [List.length_cons, List.length_nil, pow_one]
      omega
    · have hout : natToCharsAux (f + 1) n = natToCharsAux f (n / 10) ++ [digitChar (n % 10)] := by
        simp only [natToCharsAux]; rw [if_neg hn]
      have hdiv : n / 10 < 10 ^ f := by
        rw [Nat.div_lt_iff_lt_mul (by norm_num)]
        calc n < 10 ^ (f + 1) := h
        _ = 10 ^ f * 10 := by ring
      rw [hout, List.append_assoc, ih (n / 10) acc _ hdiv]
      show parseDigits (digitChar (n % 10) :: rest) _ = _
      rw [parseDigits_cons _ _ _ (isDigitCh_digitChar _ (by omega)), digitChar_toNat _ (by omega)]
      congr 1
      simp only [List.length_append, List.length_cons, List.length_nil]
      rw [pow_succ, ← mul_assoc]
      have hdm : 10 * (n / 10) + n % 10 = n := Nat.div_add_mod n 10
      generalize acc * 10 ^ (natToCharsAux f (n / 10)).length = X
      omega

theorem parseDigits_stop (rest : List Char) (acc : Nat) (h : nextSafe rest = true) :
    parseDigits rest acc = (acc, rest) := by
  cases rest with
  | nil => rfl
  | cons c r =>
    unfold nextSafe at h
    simp only [Bool.not_eq_true', Bool.or_eq_false_iff] at h
    simp only [parseDigits]
    rw [if_neg (by simp [h.1.1])]

theorem parseNatNum_natToChars (n : Nat) (rest : List Char) (hsafe : nextSafe rest = true) :
    parseNatNum (natToChars n ++ rest) = some (n, rest) := by
  have hlt : n < 10 ^ (n + 1) :=
    lt_of_lt_of_le (Nat.lt_pow_self (by norm_num) n)
      (Nat.pow_le_pow_right (by norm_num) (Nat.le_succ n))
  obtain ⟨c, cs, hcs⟩ : ∃ c cs, natToCharsAux (n + 1) n = c :: cs :=
    List.exists_cons_of_ne_nil (natToCharsAux_ne_nil n n)
  have hcdig : isDigitCh c = true := by
    obtain ⟨d, hd, hcd⟩ := natToCharsAux_mem (n + 1) n c (by rw [hcs]; simp)
    rw [hcd]; exact isDigitCh_digitChar d hd
  have hdig : parseDigits (c :: (cs ++ rest)) 0 = (n, rest) := by
    rw [← List.cons_append, ← hcs,
      parseDigits_natToCharsAux (n + 1) n 0 rest hlt]
    simp only [Nat.zero_mul, Nat.zero_add]
    exact parseDigits_stop rest n hsafe
  show parseNatNum (natToCharsAux (n + 1) n ++ rest) = some (n, rest)
  rw [hcs]
  show parseNatNum (c :: (cs ++ rest)) = some (n, rest)
  simp only [parseNatNum]
  rw [if_pos hcdig, hdig]
  cases hr : rest with
  | nil => rfl
  | cons d r =>
    subst hr
    unfold nextSafe at hsafe
    simp only [Bool.not_eq_true', Bool.or_eq_false_iff, decide_eq_false_iff_not] at hsafe
    show (if (decide (d = '.') || decide (d = 'e') || decide (d = 'E')) = true then none
      else some (n, d :: r)) = some (n, d :: r)
    rw [if_neg (by simp [hsafe.1.1.2, hsafe.1.2, hsafe.2])]

theorem parseIntNum_intToChars (n : Int) (rest : List Char) (hsafe : nextSafe rest = true) :
    parseIntNum (intToChars n ++ rest) = some (n, rest) := by
  unfold intToChars
  by_cases hn : n < 0
  · rw [if_pos hn]
    show parseIntNum ('-' :: (natToChars n.natAbs ++ rest)) = _
    simp only [parseIntNum, if_true]
    rw [parseNatNum_natToChars n.natAbs rest hsafe]
    show some (-(n.natAbs : Int), rest) = _
    congr 2
    omega
  · rw [if_neg hn]
    obtain ⟨c, cs, hcs⟩ : ∃ c cs, natToCharsAux (n.natAbs + 1) n.natAbs = c :: cs :=
      List.exists_cons_of_ne_nil (natToCharsAux_ne_nil n.natAbs n.natAbs)
    have hcdig : 48 ≤ c.toNat ∧ c.toNat ≤ 57 := by
      obtain ⟨d, hd, hcd⟩ := natToCharsAux_mem (n.natAbs + 1) n.natAbs c (by rw [hcs]; simp)
      rw [hcd, digitChar_toNat d hd]
      omega
    have hpn : parseNatNum (c :: (cs ++ rest)) = some (n.natAbs, rest) := by
      rw [← List.cons_append, ← hcs]
      exact parseNatNum_natToChars n.natAbs rest hsafe
    show parseIntNum (natToCharsAux (n.natAbs + 1) n.natAbs ++ rest) = _
    rw [hcs]
    show parseIntNum (c :: (cs ++ rest)) = _
    simp only [parseIntNum]
    rw [if_neg (char_ne (by have h45 : ('-' : Char).toNat = 45 := rfl; omega)), hpn]
    show some ((n.natAbs : Int), rest) = _
    congr 2
    omega

theorem intToChars_head (n : Int) : ∃ c cs, intToChars n = c :: cs ∧
    (c.toNat = 45 ∨ (48 ≤ c.toNat ∧ c.toNat ≤ 57)) := by
  unfold intToChars
  by_cases hn : n < 0
  · rw [if_pos hn]
    exact ⟨'-', natToChars n.natAbs, rfl, Or.inl rfl⟩
  · rw [if_neg hn]
    obtain ⟨c, cs, hcs⟩ : ∃ c cs, natToCharsAux (n.natAbs + 1) n.natAbs = c :: cs :=
      List.exists_cons_of_ne_nil (natToCharsAux_ne_nil n.natAbs n.natAbs)
    refine ⟨c, cs, hcs, Or.inr ?_⟩
    obtain ⟨d, hd, hcd⟩ := natToCharsAux_mem (n.natAbs + 1) n.natAbs c (by rw [hcs]; simp)
    rw [hcd, digitChar_toNat d hd]
    omega

/-- The first character of a serialized primitive: at least `'!'` in
code, and none of `[`, `]`, the closing brace, `,`, `:`. -/
theorem dumpPrim_head (p : JPrim) : ∃ c cs, dumpPrim p = c :: cs ∧ 33 ≤ c.toNat ∧
    c.toNat ≠ 91 ∧ c.toNat ≠ 93 ∧ c.toNat ≠ 125 ∧ c.toNat ≠ 44 ∧ c.toNat ≠ 58 := by
  cases p with
  | str s => exact ⟨dq, _, rfl, by decide, by decide, by decide, by decide, by decide, by decide⟩
  | bool b =>
    cases b with
    | true => exact ⟨'t', _, rfl, by decide, by decide, by decide, by decide, by decide, by decide⟩
    | false =>
      exact ⟨'f', _, rfl, by decide, by decide, by decide, by decide, by decide, by decide⟩
  | null => exact ⟨'n', _, rfl, by decide, by decide, by decide, by decide, by decide, by decide⟩
  | int n =>
    obtain ⟨c, cs, hcs, hc⟩ := intToChars_head n
    exact ⟨c, cs, hcs, by omega, by omega, by omega, by omega, by omega, by omega⟩

theorem isWsCh_false_ge33 (c : Char) (h : 33 ≤ c.toNat) : isWsCh c = false := by
  have hsp : ¬(c = ' ') := char_ne (by have h32 : (' ' : Char).toNat = 32 := rfl; omega)
  simp [isWsCh, hsp]
  omega

theorem skipWs_cons_ge33 (c : Char) (l : List Char) (h : 33 ≤ c.toNat) :
    skipWs (c :: l) = c :: l := by
  simp [skipWs, isWsCh_false_ge33 c h]

theorem parsePrim_dumpPrim (p : JPrim) (rest : List Char) (hsafe : nextSafe rest = true) :
    parsePrim (dumpPrim p ++ rest) = some (p, rest) := by
  cases p with
  | str s =>
    have hshape : dumpPrim (.str s) ++ rest =
        dq :: ((s.data.map escapeChar).flatten ++ dq :: rest) := by
      show dumpString s ++ rest = _
      simp [dumpString]
    rw [hshape]
    simp only [parsePrim, if_true]
    rw [parseStrBody_escape]
    obtain ⟨d⟩ := s
    rfl
  | int n =>
    obtain ⟨c, cs, hcs, hc⟩ := intToChars_head n
    have hshape : dumpPrim (.int n) ++ rest = c :: (cs ++ rest) := by
      show intToChars n ++ rest = _
      rw [hcs]
      rfl
    rw [hshape]
    simp only [parsePrim]
    rw [if_neg (char_ne (by have hv : dq.toNat = 34 := rfl; omega)),
      if_neg (char_ne (by have hv : ('t' : Char).toNat = 116 := rfl; omega)),
      if_neg (char_ne (by have hv : ('f' : Char).toNat = 102 := rfl; omega)),
      if_neg (char_ne (by have hv : ('n' : Char).toNat = 110 := rfl; omega))]
    rw [← List.cons_append, ← hcs]
    show (parseIntNum (intToChars n ++ rest)).map _ = _
    rw [parseIntNum_intToChars n rest hsafe]
    rfl
  | bool b => cases b <;> rfl
  | null => rfl

/-! ## JSON parser round trip: arrays, objects, the full round trip -/

theorem skipWs_space (w : List Char) : skipWs (' ' :: w) = skipWs w := by
  simp [skipWs, isWsCh]

theorem parseElems_ws (fuel : Nat) (w : List Char) :
    parseElems fuel (' ' :: w) = parseElems fuel w := by
  cases fuel with
  | zero => rfl
  | succ f => simp only [parseElems, skipWs_space]

theorem parseElems_dump : ∀ (xs : List JPrim) (x : JPrim) (fuel : Nat) (rest : List Char),
    xs.length < fuel →
    parseElems fuel (sepList [',', ' '] ((x :: xs).map dumpPrim) ++ ']' :: rest) =
      some (x :: xs, rest) := by
  intro xs
  induction xs with
  | nil =>
    intro x fuel rest hf
    match fuel, hf with
    | f + 1, _ =>
      obtain ⟨c, cs, hcs, hge, _, h93, _, h44, _⟩ := dumpPrim_head x
      show parseElems (f + 1) (sepList [',', ' '] [dumpPrim x] ++ ']' :: rest) = _
      have hsep : sepList [',', ' '] [dumpPrim x] = dumpPrim x := rfl
      rw [hsep]
      simp only [parseElems]
      rw [show dumpPrim x ++ ']' :: rest = c :: (cs ++ ']' :: rest) from by rw [hcs]; rfl]
      rw [skipWs_cons_ge33 c _ hge]
      rw [show c :: (cs ++ ']' :: rest) = dumpPrim x ++ ']' :: rest from by rw [hcs]; rfl]
      rw [parsePrim_dumpPrim x (']' :: rest) (by rfl)]
      show (match skipWs (']' :: rest) with
        | [] => none
        | c :: r2 =>
          if c = ',' then (parseElems f r2).map (fun pr => (x :: pr.1, pr.2))
          else if c = ']' then some ([x], r2) else none) = some ([x], rest)
      rw [show skipWs (']' :: rest) = ']' :: rest from skipWs_cons_ge33 ']' rest (by decide)]
      rfl
  | cons y ys ih =>
    intro x fuel rest hf
    match fuel, hf with
    | f + 1, hf =>
      obtain ⟨c, cs, hcs, hge, _, _, _, _, _⟩ := dumpPrim_head x
      show parseElems (f + 1)
        (sepList [',', ' '] ((x :: y :: ys).map dumpPrim) ++ ']' :: rest) = _
      have hsep : sepList [',', ' '] ((x :: y :: ys).map dumpPrim) =
          dumpPrim x ++ [',', ' '] ++ sepList [',', ' '] ((y :: ys).map dumpPrim) := rfl
      rw [hsep]
      simp only [parseElems]
      rw [show (dumpPrim x ++ [',', ' '] ++ sepList [',', ' '] ((y :: ys).map dumpPrim)) ++
          ']' :: rest = c :: (cs ++
            (',' :: ' ' :: (sepList [',', ' '] ((y :: ys).map dumpPrim) ++ ']' :: rest))) from by
        rw [hcs]; simp]
      rw [skipWs_cons_ge33 c _ hge]
      rw [show c :: (cs ++
          (',' :: ' ' :: (sepList [',', ' '] ((y :: ys).map dumpPrim) ++ ']' :: rest))) =
        dumpPrim x ++
          (',' :: ' ' :: (sepList [',', ' '] ((y :: ys).map dumpPrim) ++ ']' :: rest)) from by
        rw [hcs]; rfl]
      rw [parsePrim_dumpPrim x
        (',' :: ' ' :: (sepList [',', ' '] ((y :: ys).map dumpPrim) ++ ']' :: rest)) (by rfl)]
      show (match skipWs (',' :: ' ' ::
          (sepList [',', ' '] ((y :: ys).map dumpPrim) ++ ']' :: rest)) with
        | [] => none
        | c :: r2 =>
          if c = ',' then (parseElems f r2).map (fun pr => (x :: pr.1, pr.2))
          else if c = ']' then some ([x], r2) else none) = some (x :: y :: ys, rest)
      rw [show skipWs (',' :: ' ' ::
          (sepList [',', ' '] ((y :: ys).map dumpPrim) ++ ']' :: rest)) =
        ',' :: ' ' :: (sepList [',', ' '] ((y :: ys).map dumpPrim) ++ ']' :: rest) from
        skipWs_cons_ge33 ',' _ (by decide)]
      show (if (',' : Char) = ',' then
          (parseElems f (' ' :: (sepList [',', ' '] ((y :: ys).map dumpPrim) ++
            ']' :: rest))).map (fun pr => (x :: pr.1, pr.2))
        else if (',' : Char) = ']' then
          some ([x], ' ' :: (sepList [',', ' '] ((y :: ys).map dumpPrim) ++ ']' :: rest))
        else none) = _
      rw [if_pos rfl, parseElems_ws, ih y f rest (by simpa using hf)]
      rfl

theorem dumpVal_head (v : JVal) : ∃ c cs, dumpVal v = c :: cs ∧ 33 ≤ c.toNat ∧
    c.toNat ≠ 93 ∧ c.toNat ≠ 125 ∧ c.toNat ≠ 44 ∧ c.toNat ≠ 58 := by
  cases v with
  | prim p =>
    obtain ⟨c, cs, hcs, hge, _, h93, h125, h44, h58⟩ := dumpPrim_head p
    exact ⟨c, cs, hcs, hge, h93, h125, h44, h58⟩
  | arr xs =>
    exact ⟨'[', _, rfl, by decide, by decide, by decide, by decide, by decide⟩

theorem sepList_elems_len (xs : List JPrim) :
    xs.length ≤ (sepList [',', ' '] (xs.map dumpPrim)).length := by
  induction xs with
  | nil => simp [sepList]
  | cons x xs' ih =>
    obtain ⟨c, cs, hcs, _⟩ := dumpPrim_head x
    have hxlen : 0 < (dumpPrim x).length := by rw [hcs]; simp
    cases xs' with
    | nil => simpa [sepList] using hxlen
    | cons y ys =>
      have hsep : sepList [',', ' '] ((x :: y :: ys).map dumpPrim) =
          dumpPrim x ++ [',', ' '] ++ sepList [',', ' '] ((y :: ys).map dumpPrim) := rfl
      rw [hsep]
      simp only [List.length_append, List.length_cons, List.length_nil]
      have := ih
      simp only [List.length_cons] at this ⊢
      omega

theorem arrCount_le_dumpVal (v : JVal) : arrCount v ≤ (dumpVal v).length := by
  cases v with
  | prim p => simp [arrCount]
  | arr xs =>
    show xs.length ≤ ('[' :: (sepList [',', ' '] (xs.map dumpPrim) ++ [']'])).length
    have := sepList_elems_len xs
    simp only [List.length_cons, List.length_append]
    omega

theorem parseVal_dump (v : JVal) (fuel : Nat) (rest : List Char) (hfuel : arrCount v ≤ fuel)
    (hsafe : nextSafe rest = true) :
    parseVal fuel (dumpVal v ++ rest) = some (v, rest) := by
  cases v with
  | prim p =>
    obtain ⟨c, cs, hcs, hge, h91, _, _, _, _⟩ := dumpPrim_head p
    show parseVal fuel (dumpPrim p ++ rest) = _
    rw [show dumpPrim p ++ rest = c :: (cs ++ rest) from by rw [hcs]; rfl]
    simp only [parseVal]
    rw [if_neg (char_ne (by have hv : ('[' : Char).toNat = 91 := rfl; omega))]
    rw [show c :: (cs ++ rest) = dumpPrim p ++ rest from by rw [hcs]; rfl]
    rw [parsePrim_dumpPrim p rest hsafe]
    rfl
  | arr xs =>
    cases xs with
    | nil =>
      show parseVal fuel ('[' :: ']' :: rest) = some (.arr [], rest)
      simp only [parseVal, if_true]
      rw [show skipWs (']' :: rest) = ']' :: rest from skipWs_cons_ge33 ']' rest (by decide)]
      rfl
    | cons x xs' =>
      obtain ⟨c, cs, hcs, hge, _, h93, _, _, _⟩ := dumpPrim_head x
      rw [show dumpVal (.arr (x :: xs')) ++ rest =
        '[' :: (sepList [',', ' '] ((x :: xs').map dumpPrim) ++ ']' :: rest) from by
        show ('[' :: (sepList [',', ' '] ((x :: xs').map dumpPrim) ++ [']'])) ++ rest = _
        simp]
      obtain ⟨tl, htl⟩ : ∃ tl, sepList [',', ' '] ((x :: xs').map dumpPrim) = c :: tl := by
        cases xs' with
        | nil => exact ⟨cs, by rw [show sepList [',', ' '] ([x].map dumpPrim) = dumpPrim x
            from rfl, hcs]⟩
        | cons y ys =>
          refine ⟨cs ++ ([',', ' '] ++ sepList [',', ' '] ((y :: ys).map dumpPrim)), ?_⟩
          rw [show sepList [',', ' '] ((x :: y :: ys).map dumpPrim) =
            dumpPrim x ++ [',', ' '] ++ sepList [',', ' '] ((y :: ys).map dumpPrim) from rfl, hcs]
          simp
      simp only [parseVal, if_true]
      rw [htl, List.cons_append]
      rw [show skipWs (c :: (tl ++ ']' :: rest)) = c :: (tl ++ ']' :: rest) from
        skipWs_cons_ge33 c _ hge]
      show (if c = ']' then some (JVal.arr [], tl ++ ']' :: rest)
        else Option.map (fun pr => (JVal.arr pr.1, pr.2))
          (parseElems fuel (c :: (tl ++ ']' :: rest)))) = some (JVal.arr (x :: xs'), rest)
      rw [if_neg (char_ne (by have hv : (']' : Char).toNat = 93 := rfl; omega))]
      rw [show c :: (tl ++ ']' :: rest) = (c :: tl) ++ ']' :: rest from rfl, ← htl]
      rw [parseElems_dump xs' x fuel rest (by simpa [arrCount] using hfuel)]
      rfl

theorem parseMember_dump (k : String) (v : JVal) (tail : List Char)
    (hsafe : nextSafe tail = true) :
    parseMember (dumpMember (k, v) ++ tail) = some ((k, v), tail) := by
  have hshape : dumpMember (k, v) ++ tail =
      dq :: ((k.data.map escapeChar).flatten ++ dq :: (':' :: ' ' :: (dumpVal v ++ tail))) := by
    show (dumpString k ++ ':' :: ' ' :: dumpVal v) ++ tail = _
    simp [dumpString]
  rw [hshape]
  simp only [parseMember]
  rw [skipWs_cons_ge33 dq ((k.data.map escapeChar).flatten ++ dq ::
    (':' :: ' ' :: (dumpVal v ++ tail))) (by decide)]
  show (if dq = dq then
      match parseStrBody ((k.data.map escapeChar).flatten ++ dq ::
        (':' :: ' ' :: (dumpVal v ++ tail))) with
      | none => none
      | some (k', r2) =>
        match skipWs r2 with
        | [] => none
        | d :: r3 =>
          if d = ':' then
            match parseVal r3.length (skipWs r3) with
            | none => none
            | some (v', r4) => some ((String.mk k', v'), r4)
          else none
    else none) = some ((k, v), tail)
  rw [if_pos rfl, parseStrBody_escape]
  show (match skipWs (':' :: ' ' :: (dumpVal v ++ tail)) with
    | [] => none
    | d :: r3 =>
      if d = ':' then
        match parseVal r3.length (skipWs r3) with
        | none => none
        | some (v', r4) => some ((String.mk k.data, v'), r4)
      else none) = some ((k, v), tail)
  rw [skipWs_cons_ge33 ':' (' ' :: (dumpVal v ++ tail)) (by decide)]
  show (if (':' : Char) = ':' then
      match parseVal (' ' :: (dumpVal v ++ tail)).length (skipWs (' ' :: (dumpVal v ++ tail))) with
      | none => none
      | some (v', r4) => some ((String.mk k.data, v'), r4)
    else none) = some ((k, v), tail)
  rw [if_pos rfl, skipWs_space]
  obtain ⟨c, cs, hcs, hge, _⟩ := dumpVal_head v
  rw [show skipWs (dumpVal v ++ tail) = dumpVal v ++ tail from by
    rw [show dumpVal v ++ tail = c :: (cs ++ tail) from by rw [hcs]; rfl]
    exact skipWs_cons_ge33 c _ hge]
  rw [parseVal_dump v (' ' :: (dumpVal v ++ tail)).length tail
    (by have := arrCount_le_dumpVal v; simp only [List.length_cons, List.length_append]; omega)
    hsafe]

theorem parseMember_ws (w : List Char) : parseMember (' ' :: w) = parseMember w := by
  simp only [parseMember, skipWs_space]

theorem parseMembers_ws (fuel : Nat) (w : List Char) :
    parseMembers fuel (' ' :: w) = parseMembers fuel w := by
  cases fuel with
  | zero => rfl
  | succ f => simp only [parseMembers, parseMember_ws]

theorem sepList_members_len (ms : List (String × JVal)) :
    ms.length ≤ (sepList [',', ' '] (ms.map dumpMember)).length := by
  induction ms with
  | nil => simp [sepList]
  | cons m ms' ih =>
    obtain ⟨k, v⟩ := m
    have hmlen : 0 < (dumpMember (k, v)).length := by
      show 0 < (dumpString k ++ ':' :: ' ' :: dumpVal v).length
      simp [dumpString]
    cases ms' with
    | nil => simpa [sepList] using hmlen
    | cons m2 ms2 =>
      have hsep : sepList [',', ' '] (((k, v) :: m2 :: ms2).map dumpMember) =
          dumpMember (k, v) ++ [',', ' '] ++ sepList [',', ' '] ((m2 :: ms2).map dumpMember) :=
        rfl
      rw [hsep]
      simp only [List.length_append, List.length_cons, List.length_nil]
      simp only [List.length_cons] at ih ⊢
      omega

theorem parseMembers_dump : ∀ (ms : List (String × JVal)) (m : String × JVal) (fuel : Nat)
    (rest : List Char), ms.length < fuel →
    parseMembers fuel (sepList [',', ' '] ((m :: ms).map dumpMember) ++ rbrace :: rest) =
      some (m :: ms, rest) := by
  intro ms
  induction ms with
  | nil =>
    intro m fuel rest hf
    obtain ⟨k, v⟩ := m
    match fuel, hf with
    | f + 1, _ =>
      have hsep : sepList [',', ' '] ([(k, v)].map dumpMember) = dumpMember (k, v) := rfl
      show parseMembers (f + 1)
        (sepList [',', ' '] ([(k, v)].map dumpMember) ++ rbrace :: rest) = _
      rw [hsep]
      simp only [parseMembers]
      rw [parseMember_dump k v (rbrace :: rest) (by rfl)]
      show (match skipWs (rbrace :: rest) with
        | [] => none
        | e :: r5 =>
          if e = ',' then (parseMembers f r5).map (fun pr => ((k, v) :: pr.1, pr.2))
          else if e = rbrace then some ([(k, v)], r5)
          else none) = some ([(k, v)], rest)
      rw [skipWs_cons_ge33 rbrace rest (by decide)]
      show (if rbrace = ',' then (parseMembers f rest).map (fun pr => ((k, v) :: pr.1, pr.2))
        else if rbrace = rbrace then some ([(k, v)], rest) else none) = some ([(k, v)], rest)
      rw [if_neg (by decide), if_pos rfl]
  | cons m2 ms2 ih =>
    intro m fuel rest hf
    obtain ⟨k, v⟩ := m
    match fuel, hf with
    | f + 1, hf =>
      show parseMembers (f + 1)
        (sepList [',', ' '] (((k, v) :: m2 :: ms2).map dumpMember) ++ rbrace :: rest) = _
      rw [show sepList [',', ' '] (((k, v) :: m2 :: ms2).map dumpMember) ++ rbrace :: rest =
        dumpMember (k, v) ++ (',' :: ' ' ::
          (sepList [',', ' '] ((m2 :: ms2).map dumpMember) ++ rbrace :: rest)) from by
        show (dumpMember (k, v) ++ [',', ' '] ++
          sepList [',', ' '] ((m2 :: ms2).map dumpMember)) ++ rbrace :: rest = _
        simp]
      simp only [parseMembers]
      rw [parseMember_dump k v (',' :: ' ' ::
        (sepList [',', ' '] ((m2 :: ms2).map dumpMember) ++ rbrace :: rest)) (by rfl)]
      show (match skipWs (',' :: ' ' ::
          (sepList [',', ' '] ((m2 :: ms2).map dumpMember) ++ rbrace :: rest)) with
        | [] => none
        | e :: r5 =>
          if e = ',' then (parseMembers f r5).map (fun pr => ((k, v) :: pr.1, pr.2))
          else if e = rbrace then some ([(k, v)], r5)
          else none) = some ((k, v) :: m2 :: ms2, rest)
      rw [skipWs_cons_ge33 ',' (' ' ::
        (sepList [',', ' '] ((m2 :: ms2).map dumpMember) ++ rbrace :: rest)) (by decide)]
      show (if (',' : Char) = ',' then
          (parseMembers f (' ' ::
            (sepList [',', ' '] ((m2 :: ms2).map dumpMember) ++ rbrace :: rest))).map
              (fun pr => ((k, v) :: pr.1, pr.2))
        else if (',' : Char) = rbrace then
          some ([(k, v)], ' ' ::
            (sepList [',', ' '] ((m2 :: ms2).map dumpMember) ++ rbrace :: rest))
        else none) = some ((k, v) :: m2 :: ms2, rest)
      rw [if_pos rfl, parseMembers_ws, ih m2 f rest (by simpa using hf)]
      rfl

/-- The full `json.loads ∘ json.dumps` round trip on payload objects. -/
theorem loads_dumpObj (m : PObj) : loads (String.mk (dumpObj m)) = some m := by
  cases m with
  | nil => rfl
  | cons m0 ms =>
    simp only [loads]
    rw [show skipWs (String.mk (dumpObj (m0 :: ms))).data =
      lbrace :: (sepList [',', ' '] ((m0 :: ms).map dumpMember) ++ [rbrace]) from by
      show skipWs (lbrace :: (sepList [',', ' '] ((m0 :: ms).map dumpMember) ++ [rbrace])) = _
      exact skipWs_cons_ge33 lbrace _ (by decide)]
    show (if lbrace = lbrace then
        match skipWs (sepList [',', ' '] ((m0 :: ms).map dumpMember) ++ [rbrace]) with
        | [] => none
        | d :: r2 =>
          if d = rbrace then if (skipWs r2).isEmpty then some [] else none
          else
            match parseMembers (lbrace ::
              (sepList [',', ' '] ((m0 :: ms).map dumpMember) ++ [rbrace])).length (d :: r2) with
            | none => none
            | some (ms', r3) => if (skipWs r3).isEmpty then some ms' else none
      else none) = some (m0 :: ms)
    rw [if_pos rfl]
    obtain ⟨tl, htl⟩ : ∃ tl, sepList [',', ' '] ((m0 :: ms).map dumpMember) = dq :: tl := by
      obtain ⟨k0, v0⟩ := m0
      cases ms with
      | nil => exact ⟨_, rfl⟩
      | cons m2 ms2 => exact ⟨_, rfl⟩
    rw [htl, List.cons_append]
    rw [skipWs_cons_ge33 dq (tl ++ [rbrace]) (by decide)]
    show (if dq = rbrace then if (skipWs (tl ++ [rbrace])).isEmpty then some [] else none
      else
        match parseMembers (lbrace :: (dq :: tl ++ [rbrace])).length
          (dq :: (tl ++ [rbrace])) with
        | none => none
        | some (ms', r3) => if (skipWs r3).isEmpty then some ms' else none) = some (m0 :: ms)
    rw [if_neg (by decide)]
    have hlen : ms.length < (lbrace :: (dq :: tl ++ [rbrace])).length := by
      have h1 := sepList_members_len (m0 :: ms)
      rw [htl] at h1
      simp only [List.length_cons, List.cons_append, List.length_append,
        List.length_nil] at h1 ⊢
      omega
    have hmem : ∀ F : Nat, ms.length < F →
        parseMembers F (dq :: (tl ++ [rbrace])) = some (m0 :: ms, []) := by
      intro F hF
      rw [show dq :: (tl ++ [rbrace]) = (dq :: tl) ++ rbrace :: [] from by simp, ← htl]
      exact parseMembers_dump ms m0 F [] hF
    rw [hmem _ hlen]
    rfl

/-! ## C3: the encoded payload -/

/-- **C3, counterexample.**  The encoded payload is *not* the base64
encoding of the compact-JSON serialization (minimal separators `","`
and `":"`): `json.dumps` is called with its defaults, which put a space
after every comma and colon, so already for the empty caller payload
the two encodings differ. -/
theorem encodedPayload_not_compact :
    encodedPayload (injectFields [] "/v1/heartbeat" 1650000000123) ≠
      b64Encode (utf8Encode (dumpObjCompact (injectFields [] "/v1/heartbeat" 1650000000123))) :=
  by decide

/-- **C3** (amended: the serialization uses `json.dumps`'s default
separators — a comma and a space between members, a colon and a space
after each key — not the minimal "compact" separators).  The value sent
in `X-GEMINI-PAYLOAD` is the base64 encoding of the UTF-8 bytes of that
serialization of the payload-plus-injected-fields, and base64-decoding,
UTF-8-decoding and JSON-parsing it round-trips to exactly the original
payload with the injected `request` and `nonce` fields: `request` and
`nonce` hold the injected values, and every other field is preserved
untouched. -/
theorem payload_roundtrip (c : PrivateClient) (payload : Option PObj) (method : String)
    (ms : Nat) :
    (api_query_request c method payload ms).headers.lookup "X-GEMINI-PAYLOAD" =
        some (String.mk (encodedPayload (injectFields (payload.getD []) method ms)))
    ∧ b64Decode (encodedPayload (injectFields (payload.getD []) method ms)) =
        some (utf8Encode (dumpObj (injectFields (payload.getD []) method ms)))
    ∧ utf8Decode (utf8Encode (dumpObj (injectFields (payload.getD []) method ms))) =
        some (dumpObj (injectFields (payload.getD []) method ms))
    ∧ loads (String.mk (dumpObj (injectFields (payload.getD []) method ms))) =
        some (injectFields (payload.getD []) method ms)
    ∧ dictGet (injectFields (payload.getD []) method ms) "request" =
        some (.prim (.str method))
    ∧ dictGet (injectFields (payload.getD []) method ms) "nonce" =
        some (.prim (.str (String.mk (pyNonce ms))))
    ∧ (injectFields (payload.getD []) method ms).filter
        (fun kv => !(kv.1 == "request" || kv.1 == "nonce")) =
      (payload.getD []).filter (fun kv => !(kv.1 == "request" || kv.1 == "nonce")) := by
  refine ⟨rfl, b64_roundtrip _ (utf8Encode_lt _), utf8_roundtrip _, loads_dumpObj _, ?_, ?_, ?_⟩
  · unfold injectFields
    rw [dictGet_dictSet_ne _ _ _ _ (by decide), dictGet_dictSet]
  · unfold injectFields
    rw [dictGet_dictSet]
  · unfold injectFields
    rw [filter_dictSet_erase _ "nonce" _ _ (fun w => rfl)
      (fun kv w h => by rw [show kv.1 = "nonce" from h])]
    rw [filter_dictSet_erase _ "request" _ _ (fun w => rfl)
      (fun kv w h => by rw [show kv.1 = "request" from h])]

end GeminiClient
